import Mathlib

/-!
# NANO-S16 kernel: allocators, service dispatcher and program loader

A shallow embedding of the two allocators, the service dispatcher and the
program loader of `source/kernel.c`, and of the `memcpy` and string functions of
`source/ulib/ulib.c` they rely on, followed by theorems about them.

Conventions of the embedding
* C arrays are lists (`heap[HEAP_MAX_BLOCK]`, `lmem[LMEM_MAX_BLOCK]`); reads go
  through `hget` / `lget`, writes through `List.set`.
* `uint` is the 16-bit unsigned integer of the target, `uint32_t` and `lptr` are
  32-bit unsigned; values are natural numbers and the 32-bit operations that can
  wrap are reduced modulo `U32`.
* A `for`/`while` loop becomes a recursive function whose first numeric argument
  is the number of iterations still allowed.
* The null pointer and the "not found" result are the number `0`, as in the C code.
-/

namespace NanoS16

/-! ## Block heap (kernel.c, lines 35-115) -/

/-- The `struct HEAPBLOCK` descriptor: `used` flag and owner pointer `ptr`. -/
structure HEAPBLOCK where
  used : Nat
  ptr : Nat
deriving DecidableEq, Repr

/-- Number of heap blocks, `#define HEAP_MAX_BLOCK 0x0080U`. -/
def HEAP_MAX_BLOCK : Nat := 0x0080

/-- Size of the heap arena in bytes, `#define HEAP_MEM_SIZE 0x2000U`. -/
def HEAP_MEM_SIZE : Nat := 0x2000

/-- Size of one block, `HEAP_MEM_SIZE / HEAP_MAX_BLOCK`. -/
def HEAP_BLOCK_SIZE : Nat := HEAP_MEM_SIZE / HEAP_MAX_BLOCK

/-- Read of `heap[i]`. -/
def hget (heap : List HEAPBLOCK) (i : Nat) : HEAPBLOCK :=
  heap.getD i ⟨0, 0⟩

/-- Loop of `heap_init`,
`for(i=0; i<HEAP_MAX_BLOCK; i++) { heap[i].used = 0; heap[i].ptr = 0; }`,
with `k` iterations left, run on a table with any contents. -/
def heap_init_loop : Nat → Nat → List HEAPBLOCK → List HEAPBLOCK
  | 0, _, heap => heap
  | k + 1, i, heap => heap_init_loop k (i + 1) (heap.set i ⟨0, 0⟩)

/-- The table left by `heap_init`: every block has `used = 0` and `ptr = 0`
(see `heap_init_loop_eq`). -/
def heap_init : List HEAPBLOCK :=
  List.replicate HEAP_MAX_BLOCK ⟨0, 0⟩

/-- Inner loop of `heap_alloc`,
`for(j=...; j<=i; j++) { heap[j].ptr = addr; heap[j].used = 1; }`;
the first argument is the number of iterations left, `i + 1 - j`. -/
def heap_claim (addr : Nat) : Nat → Nat → List HEAPBLOCK → List HEAPBLOCK
  | 0, _, heap => heap
  | n + 1, j, heap => heap_claim addr n (j + 1) (heap.set j ⟨1, addr⟩)

/-- Search loop of `heap_alloc`, `for(i=0; i<HEAP_MAX_BLOCK; i++)`, entered with
`k = HEAP_MAX_BLOCK - i` iterations left, index `i` and counter `n_found`.
`HEAPADDR` is the address of the arena `HEAPADDR[HEAP_MEM_SIZE]`, which lies
inside the 16-bit address space, so `&HEAPADDR[bi]` is `HEAPADDR + bi`. The result
is the new table and the returned pointer (`0` when the loop runs out). -/
def heap_alloc_loop (HEAPADDR n_alloc : Nat) (heap : List HEAPBLOCK) :
    Nat → Nat → Nat → List HEAPBLOCK × Nat
  | 0, _, _ => (heap, 0)
  | k + 1, i, n_found =>
    if (hget heap i).used ≠ 0 then
      heap_alloc_loop HEAPADDR n_alloc heap k (i + 1) 0
    else if n_found + 1 ≥ n_alloc then
      let bi := (i + 1 - n_alloc) * HEAP_BLOCK_SIZE
      let addr := HEAPADDR + bi
      (heap_claim addr (i + 1 - (i + 1 - n_alloc)) (i + 1 - n_alloc) heap, addr)
    else
      heap_alloc_loop HEAPADDR n_alloc heap k (i + 1) (n_found + 1)

/-- Number of blocks requested, `size / HEAP_BLOCK_SIZE + ((size % HEAP_BLOCK_SIZE) ? 1 : 0)`. -/
def heap_n_alloc (size : Nat) : Nat :=
  size / HEAP_BLOCK_SIZE + (if size % HEAP_BLOCK_SIZE ≠ 0 then 1 else 0)

/-- The function `heap_alloc(size)`: new table and returned pointer. -/
def heap_alloc (HEAPADDR : Nat) (heap : List HEAPBLOCK) (size : Nat) : List HEAPBLOCK × Nat :=
  if size = 0 then (heap, 0)
  else heap_alloc_loop HEAPADDR (heap_n_alloc size) heap HEAP_MAX_BLOCK 0 0

/-- Loop of `heap_free`, `for(i=0; i<HEAP_MAX_BLOCK; i++)`, with `k` iterations left. -/
def heap_free_loop (ptr : Nat) : Nat → Nat → List HEAPBLOCK → List HEAPBLOCK
  | 0, _, heap => heap
  | k + 1, i, heap =>
    if (hget heap i).ptr = ptr ∧ (hget heap i).used ≠ 0 then
      heap_free_loop ptr k (i + 1) (heap.set i ⟨0, 0⟩)
    else
      heap_free_loop ptr k (i + 1) heap

/-- The function `heap_free(ptr)`. -/
def heap_free (heap : List HEAPBLOCK) (ptr : Nat) : List HEAPBLOCK :=
  if ptr ≠ 0 then heap_free_loop ptr HEAP_MAX_BLOCK 0 heap else heap

/-! ## Byte copy (ulib.c, lines 418-431) -/

/-- Loop of `memcpy`, `for(i=0; i<size; i++) { c = rdir?size-1-i:i; dst[c] = src[c]; }`,
over a memory of cells; `dst` and `src` are cell indices, `k` iterations are left.
The result is the memory and the final value of `i`. -/
def memcpy_loop {α : Type} (dflt : α) (dst src size : Nat) (rdir : Bool) :
    Nat → Nat → List α → List α × Nat
  | 0, i, mem => (mem, i)
  | k + 1, i, mem =>
    let c := if rdir then size - 1 - i else i
    memcpy_loop dflt dst src size rdir k (i + 1) (mem.set (dst + c) (mem.getD (src + c) dflt))

/-- The function `memcpy(dst, src, size)`; `rdir = (src>dst)?0:1`. The result is
the memory after the copy and the returned count `i`. -/
def memcpy {α : Type} (dflt : α) (mem : List α) (dst src size : Nat) : List α × Nat :=
  memcpy_loop dflt dst src size (if src > dst then false else true) size 0 mem

/-! ## Far-memory regions (kernel.c, lines 117-221) -/

/-- Modulus of the 32-bit types `uint32_t` and `lptr`. -/
def U32 : Nat := 2 ^ 32

/-- The `struct LMEMBLOCK` descriptor. -/
structure LMEMBLOCK where
  start : Nat
  size : Nat
deriving DecidableEq, Repr

/-- First address of far memory, `#define LMEM_START 0x00010000`. -/
def LMEM_START : Nat := 0x00010000

/-- Ceiling of far memory, `#define LMEM_LIMIT 0x00110000`. -/
def LMEM_LIMIT : Nat := 0x00110000

/-- Alignment unit, `#define LMEM_BLOCK_SIZE 0x10`. -/
def LMEM_BLOCK_SIZE : Nat := 0x10

/-- Number of descriptors, `#define LMEM_MAX_BLOCK 64`. -/
def LMEM_MAX_BLOCK : Nat := 64

/-- Read of `lmem[i]`. -/
def lget (lmem : List LMEMBLOCK) (i : Nat) : LMEMBLOCK :=
  lmem.getD i ⟨0, 0⟩

/-- The table left by `lmem_init` (`memset(&lmem, 0, sizeof(lmem))`). -/
def lmem_init : List LMEMBLOCK :=
  List.replicate LMEM_MAX_BLOCK ⟨0, 0⟩

/-- Search loop of `lmem_alloc`, `for(i=0; i<LMEM_MAX_BLOCK; i++)`, with `k`
iterations left; the result is the pair `(i, start)` on leaving the loop.
`size` is the already adjusted size. -/
def lmem_alloc_loop (lmem : List LMEMBLOCK) (size : Nat) : Nat → Nat → Nat → Nat × Nat
  | 0, i, start => (i, start)
  | k + 1, i, start =>
    if (lget lmem i).start ≠ 0 then
      if i = LMEM_MAX_BLOCK - 1 then (i, 0)
      else
        let start1 := ((lget lmem i).start + (lget lmem i).size) % U32
        if (lget lmem (i + 1)).start = 0 ∨ (lget lmem (i + 1)).start > (start1 + size) % U32 then
          (i + 1, start1)
        else
          lmem_alloc_loop lmem size k (i + 1) start1
    else
      let start1 := if start = 0 then LMEM_START else start
      let start2 := if (LMEM_LIMIT + U32 - start1) % U32 < size then 0 else start1
      (i, start2)

/-- The size adjustment of `lmem_alloc`, `size += size % (uint32_t)LMEM_BLOCK_SIZE`. -/
def lmem_adjust (size : Nat) : Nat :=
  (size + size % LMEM_BLOCK_SIZE) % U32

/-- The function `lmem_alloc(size)`: new table and returned address.
The table is copied by `memcpy` in units of one descriptor:
`(LMEM_MAX_BLOCK-i-1)*sizeof(struct LMEMBLOCK)` bytes are `LMEM_MAX_BLOCK-i-1` descriptors. -/
def lmem_alloc (lmem : List LMEMBLOCK) (size : Nat) : List LMEMBLOCK × Nat :=
  if size = 0 ∨ (lget lmem (LMEM_MAX_BLOCK - 1)).size ≠ 0 then (lmem, 0)
  else
    let size1 := lmem_adjust size
    let r := lmem_alloc_loop lmem size1 LMEM_MAX_BLOCK 0 0
    if r.2 ≠ 0 then
      ((memcpy ⟨0, 0⟩ lmem (r.1 + 1) r.1 (LMEM_MAX_BLOCK - r.1 - 1)).1.set r.1 ⟨r.2, size1⟩, r.2)
    else (lmem, 0)

/-- Loop of `lmem_free`, `while(i<LMEM_MAX_BLOCK)`. The index does not advance
after a removal, so the number of iterations is not fixed in advance: `fuel`
bounds it and `none` means the bound was reached before the loop ended. -/
def lmem_free_loop (ptr : Nat) : Nat → Nat → List LMEMBLOCK → Option (List LMEMBLOCK)
  | 0, i, lmem => if i < LMEM_MAX_BLOCK then none else some lmem
  | fuel + 1, i, lmem =>
    if i < LMEM_MAX_BLOCK then
      if (lget lmem i).start = ptr then
        let lmem1 := lmem.set i ⟨0, 0⟩
        let lmem2 := (memcpy ⟨0, 0⟩ lmem1 i (i + 1) (LMEM_MAX_BLOCK - i - 1)).1
        lmem_free_loop ptr fuel i (lmem2.set (LMEM_MAX_BLOCK - 1) ⟨0, 0⟩)
      else
        lmem_free_loop ptr fuel (i + 1) lmem
    else some lmem

/-- The function `lmem_free(ptr)`. Each iteration either removes a descriptor
whose start is the non-zero `ptr` or advances `i`, so `2 * LMEM_MAX_BLOCK`
iterations are allowed. -/
def lmem_free (lmem : List LMEMBLOCK) (ptr : Nat) : Option (List LMEMBLOCK) :=
  if ptr ≠ 0 then lmem_free_loop ptr (2 * LMEM_MAX_BLOCK) 0 lmem else some lmem

/-! ## Observations on region tables -/

/-- Region tables reachable from the empty table by `lmem_alloc` (any 32-bit
size) and `lmem_free` (any 32-bit address) calls. -/
inductive LmemReachable : List LMEMBLOCK → Prop
  | init : LmemReachable lmem_init
  | alloc (lmem : List LMEMBLOCK) (size : Nat) :
      size < U32 → LmemReachable lmem → LmemReachable (lmem_alloc lmem size).1
  | free (lmem lmem1 : List LMEMBLOCK) (ptr : Nat) :
      ptr < U32 → LmemReachable lmem → lmem_free lmem ptr = some lmem1 → LmemReachable lmem1

/-- Entry `i` is live: its start is not zero. -/
def lmem_live (lmem : List LMEMBLOCK) (i : Nat) : Prop :=
  (lget lmem i).start ≠ 0

/-- Live entries are sorted strictly ascending by start. -/
def lmem_sorted (lmem : List LMEMBLOCK) : Prop :=
  ∀ i j, i < j → j < LMEM_MAX_BLOCK → lmem_live lmem i → lmem_live lmem j →
    (lget lmem i).start < (lget lmem j).start

/-- No two live intervals `[start, start+size)` overlap. -/
def lmem_disjoint (lmem : List LMEMBLOCK) : Prop :=
  ∀ i j, i < LMEM_MAX_BLOCK → j < LMEM_MAX_BLOCK → i ≠ j →
    lmem_live lmem i → lmem_live lmem j →
    (lget lmem i).start + (lget lmem i).size ≤ (lget lmem j).start ∨
    (lget lmem j).start + (lget lmem j).size ≤ (lget lmem i).start

/-- Follows the spec's words, not the code: the start of the lowest-addressed gap
that is at least `size` bytes wide, the candidate gaps being the one between
`lo` (initially the region base) and the first entry, those between two
consecutive entries, and the one between the last entry and the ceiling;
`0` when there is none. -/
def spec_first_gap (size : Nat) : Nat → List LMEMBLOCK → Nat
  | lo, [] => if lo + size ≤ LMEM_LIMIT then lo else 0
  | lo, e :: es => if lo + size ≤ e.start then lo else spec_first_gap size (e.start + e.size) es

/-- The live prefix of a region table. -/
def lmem_entries (lmem : List LMEMBLOCK) : List LMEMBLOCK :=
  lmem.takeWhile (fun e => e.start != 0)

/-- Table after `lmem_alloc(16)`, `lmem_alloc(0xFFFFFFF0)`, `lmem_alloc(16)` on the empty table. -/
def lmem_wrap_state : List LMEMBLOCK :=
  (lmem_alloc (lmem_alloc (lmem_alloc lmem_init 16).1 0xFFFFFFF0).1 16).1

/-- Table after `lmem_alloc(0x100000)` on the empty table: the whole region is taken. -/
def lmem_whole_state : List LMEMBLOCK :=
  (lmem_alloc lmem_init 0x100000).1

/-- Table after `lmem_alloc(32)`, `lmem_alloc(16)` on the empty table. -/
def lmem_two_state : List LMEMBLOCK :=
  (lmem_alloc (lmem_alloc lmem_init 32).1 16).1

/-- Table after three `lmem_alloc(16)` on the empty table. -/
def lmem_three_state : List LMEMBLOCK :=
  (lmem_alloc (lmem_alloc (lmem_alloc lmem_init 16).1 16).1 16).1

/-! ## Observations on block tables -/

/-- Slots `s .. s+n-1` are all free. -/
def FreeRun (heap : List HEAPBLOCK) (s n : Nat) : Prop :=
  ∀ j, s ≤ j → j < s + n → (hget heap j).used = 0

/-- The table contains `n` consecutive free slots. -/
def HasFreeRun (heap : List HEAPBLOCK) (n : Nat) : Prop :=
  ∃ s, s + n ≤ HEAP_MAX_BLOCK ∧ FreeRun heap s n

/-- Slots `a .. b-1` are a run: a maximal sequence of consecutive free blocks. -/
def MaximalRun (heap : List HEAPBLOCK) (a b : Nat) : Prop :=
  a < b ∧ b ≤ HEAP_MAX_BLOCK ∧ FreeRun heap a (b - a) ∧
  (∀ p, p + 1 = a → (hget heap p).used ≠ 0) ∧
  (b < HEAP_MAX_BLOCK → (hget heap b).used ≠ 0)

/-- The number of blocks needed for `size` bytes, `ceil(size / block_size)`. -/
def heap_needed (size : Nat) : Nat :=
  (size + HEAP_BLOCK_SIZE - 1) / HEAP_BLOCK_SIZE

/-- Number of free slots of the table. -/
def heap_free_count (heap : List HEAPBLOCK) : Nat :=
  (List.range HEAP_MAX_BLOCK).countP (fun i => (hget heap i).used == 0)

/-- Block tables reachable from the initial table by `heap_alloc` and `heap_free` calls. -/
inductive HeapReachable (HEAPADDR : Nat) : List HEAPBLOCK → Prop
  | init : HeapReachable HEAPADDR heap_init
  | alloc (heap : List HEAPBLOCK) (size : Nat) :
      HeapReachable HEAPADDR heap → HeapReachable HEAPADDR (heap_alloc HEAPADDR heap size).1
  | free (heap : List HEAPBLOCK) (ptr : Nat) :
      HeapReachable HEAPADDR heap → HeapReachable HEAPADDR (heap_free heap ptr)

/-- Block tables reachable from the initial table by `heap_alloc` calls only. -/
inductive HeapAllocOnly (HEAPADDR : Nat) : List HEAPBLOCK → Prop
  | init : HeapAllocOnly HEAPADDR heap_init
  | alloc (heap : List HEAPBLOCK) (size : Nat) :
      HeapAllocOnly HEAPADDR heap → HeapAllocOnly HEAPADDR (heap_alloc HEAPADDR heap size).1

/-- The owner invariant of the block table: a free slot has no owner, and the
owner of an in-use slot `i` is the address of a slot `k ≤ i` such that all of
`k .. i` are in use with that owner. -/
def HeapInv (HEAPADDR : Nat) (heap : List HEAPBLOCK) : Prop :=
  ∀ i, i < HEAP_MAX_BLOCK →
    ((hget heap i).used = 0 → (hget heap i).ptr = 0) ∧
    ((hget heap i).used ≠ 0 → ∃ k, k ≤ i ∧ (hget heap i).ptr = HEAPADDR + HEAP_BLOCK_SIZE * k ∧
      ∀ j, k ≤ j → j ≤ i → (hget heap j).used ≠ 0 ∧ (hget heap j).ptr = (hget heap i).ptr)

/-- Outcome of a successful search: the blocks `s .. s+n_alloc-1` were free and
are claimed, `s` starts a run, and no lower window of `n_alloc` free blocks exists. -/
def AllocAt (HEAPADDR n_alloc : Nat) (heap : List HEAPBLOCK) (s : Nat)
    (r : List HEAPBLOCK × Nat) : Prop :=
  s + n_alloc ≤ HEAP_MAX_BLOCK ∧ FreeRun heap s n_alloc ∧
  r = (heap_claim (HEAPADDR + s * HEAP_BLOCK_SIZE) n_alloc s heap,
        HEAPADDR + s * HEAP_BLOCK_SIZE) ∧
  (∀ p, p + 1 = s → (hget heap p).used ≠ 0) ∧
  (∀ t, t < s → ¬ FreeRun heap t n_alloc)

/-- The tie-break as the spec words it: when a successful allocation is served
from the run `a .. b-1` and the run is longer than needed, the slots claimed are
the last `needed` slots of the run. -/
def ClaimsRunTail (HEAPADDR : Nat) (heap : List HEAPBLOCK) (size : Nat) : Prop :=
  ∀ a b, MaximalRun heap a b → heap_needed size < b - a →
    (heap_alloc HEAPADDR heap size).2 ≠ 0 →
    (∃ s, a ≤ s ∧ s < b ∧ (heap_alloc HEAPADDR heap size).2 = HEAPADDR + HEAP_BLOCK_SIZE * s) →
    (heap_alloc HEAPADDR heap size).2 = HEAPADDR + HEAP_BLOCK_SIZE * (b - heap_needed size) ∧
    ∀ j, b - heap_needed size ≤ j → j < b →
      hget (heap_alloc HEAPADDR heap size).1 j = ⟨1, (heap_alloc HEAPADDR heap size).2⟩

/-- The tie-break of the code: when a successful allocation is served from the
run `a .. b-1` and the run is longer than needed, the slots claimed are the
first `needed` slots of the run and the rest of the run stays free. -/
def ClaimsRunHead (HEAPADDR : Nat) (heap : List HEAPBLOCK) (size : Nat) : Prop :=
  ∀ a b, MaximalRun heap a b → heap_needed size < b - a →
    (heap_alloc HEAPADDR heap size).2 ≠ 0 →
    (∃ s, a ≤ s ∧ s < b ∧ (heap_alloc HEAPADDR heap size).2 = HEAPADDR + HEAP_BLOCK_SIZE * s) →
    (heap_alloc HEAPADDR heap size).2 = HEAPADDR + HEAP_BLOCK_SIZE * a ∧
    (∀ j, a ≤ j → j < a + heap_needed size →
      hget (heap_alloc HEAPADDR heap size).1 j = ⟨1, (heap_alloc HEAPADDR heap size).2⟩) ∧
    (∀ j, a + heap_needed size ≤ j → j < b →
      (hget (heap_alloc HEAPADDR heap size).1 j).used = 0)

/-- Run of `n` successive `lmem_alloc(size)` calls from the table `lmem`: the final
table and the addresses returned, in call order. -/
def lmem_alloc_many (size : Nat) : Nat → List LMEMBLOCK → List LMEMBLOCK × List Nat
  | 0, lmem => (lmem, [])
  | n + 1, lmem =>
    let a := lmem_alloc lmem size
    let r := lmem_alloc_many size n a.1
    (r.1, a.2 :: r.2)

/-- The table whose first `k` descriptors are `{LMEM_START + 16 j, 16}`, `j < k`,
and whose other descriptors are zeroed. -/
def lmem_fill (k : Nat) : List LMEMBLOCK :=
  (List.range k).map (fun j => ⟨LMEM_START + 16 * j, 16⟩) ++
    List.replicate (LMEM_MAX_BLOCK - k) ⟨0, 0⟩

/-- The gap-free prefix property of a region table: the entries below some count
`k` are live and every entry from `k` on is zeroed. -/
def LmemPrefix (lmem : List LMEMBLOCK) : Prop :=
  ∃ k, k ≤ LMEM_MAX_BLOCK ∧ (∀ i, i < k → (lget lmem i).start ≠ 0) ∧
    (∀ i, k ≤ i → i < LMEM_MAX_BLOCK → lget lmem i = ⟨0, 0⟩)

/-! ## Strings (ulib.c, lines 292-352 and 403-416)

A `uchar*` argument is the list of the bytes stored from that address on; a read
past the end of the list yields 0, the terminator. -/

/-- Loop of `strlen`, `while(str[i] != 0) i++`. -/
def strlen_loop (str : List Nat) : Nat → Nat → Nat
  | 0, i => i
  | fuel + 1, i => if str.getD i 0 ≠ 0 then strlen_loop str fuel (i + 1) else i

/-- The function `strlen(str)`; the loop ends at the latest at the end of the list. -/
def strlen (str : List Nat) : Nat :=
  strlen_loop str str.length 0

/-- Loop of `strcpy_s`, `while(src[i]!=0 && i+1<dst_size) { dst[i] = src[i]; i++; }`;
the result is the buffer and the final `i`. -/
def strcpy_s_loop (src : List Nat) (dst_size : Nat) : Nat → Nat → List Nat → List Nat × Nat
  | 0, i, dst => (dst, i)
  | fuel + 1, i, dst =>
    if src.getD i 0 ≠ 0 ∧ i + 1 < dst_size then
      strcpy_s_loop src dst_size fuel (i + 1) (dst.set i (src.getD i 0))
    else (dst, i)

/-- The function `strcpy_s(dst, src, dst_size)`: the buffer after `dst[i] = 0` and
the returned `i`. The loop makes fewer than `dst_size` iterations. -/
def strcpy_s (dst src : List Nat) (dst_size : Nat) : List Nat × Nat :=
  let r := strcpy_s_loop src dst_size dst_size 0 dst
  (r.1.set r.2 0, r.2)

/-- Loop of `strcat_s`,
`while(src[j]!=0 && i+1<dst_size) { dst[i] = src[j]; i++; j++; }`. -/
def strcat_s_loop (src : List Nat) (dst_size : Nat) :
    Nat → Nat → Nat → List Nat → List Nat × Nat
  | 0, i, _, dst => (dst, i)
  | fuel + 1, i, j, dst =>
    if src.getD j 0 ≠ 0 ∧ i + 1 < dst_size then
      strcat_s_loop src dst_size fuel (i + 1) (j + 1) (dst.set i (src.getD j 0))
    else (dst, i)

/-- The function `strcat_s(dst, src, dst_size)`, with `i = strlen(dst)` at the start. -/
def strcat_s (dst src : List Nat) (dst_size : Nat) : List Nat × Nat :=
  let r := strcat_s_loop src dst_size dst_size (strlen dst) 0 dst
  (r.1.set r.2 0, r.2)

/-- Loop of `strchr`, `while(src[n]) { if(src[n] == c) return n+1; n++; }`. -/
def strchr_loop (src : List Nat) (c : Nat) : Nat → Nat → Nat
  | 0, _ => 0
  | fuel + 1, n =>
    if src.getD n 0 ≠ 0 then
      if src.getD n 0 = c then n + 1 else strchr_loop src c fuel (n + 1)
    else 0

/-- The function `strchr(src, c)`: one plus the index of the first `c`, or 0. -/
def strchr (src : List Nat) (c : Nat) : Nat :=
  strchr_loop src c (src.length + 1) 0

/-- The C string held by a buffer: its bytes up to the first 0. -/
def cstr (mem : List Nat) : List Nat :=
  mem.takeWhile (fun b => b != 0)

/-- The buffer `mem` holds the C string `s`: the non-zero bytes of `s` followed by
a 0, all inside the buffer. -/
def HoldsStr (mem s : List Nat) : Prop :=
  s.length < mem.length ∧ (∀ k, k < s.length → mem.getD k 0 = s.getD k 0) ∧
  mem.getD s.length 0 = 0 ∧ ∀ c, c ∈ s → c ≠ 0

/-! ## Program loader (kernel.c, lines 885-910) -/

/-- Load address, `#define EXTERN_PROGRAM_MEMLOC 0xD000`. -/
def EXTERN_PROGRAM_MEMLOC : Nat := 0xD000

/-- The string `".bin"` of `prog_ext`. -/
def prog_ext : List Nat := [46, 98, 105, 110]

/-- The file name built in the buffer `prog_file_name[32]` for the command
`argv0`: `strcpy_s`, then `strcat_s` of `prog_ext` if `strchr` finds no `'.'` (46). -/
def loader_file_name (prog_file_name argv0 : List Nat) : List Nat :=
  let b := (strcpy_s prog_file_name argv0 32).1
  if strchr b 46 = 0 then (strcat_s b prog_ext 32).1 else b

/-- The count passed to `fs_read_file`,
`min((uint)entry.size, 0xFFFF - EXTERN_PROGRAM_MEMLOC)`: `entry.size` is a 32-bit
value, the cast to the 16-bit `uint` keeps its low 16 bits, and `min` is the
lesser of its two arguments. -/
def loader_read_count (entry_size : Nat) : Nat :=
  min (entry_size % 65536) (0xFFFF - EXTERN_PROGRAM_MEMLOC)

/-- What the loader asks of storage for one command: the name it resolves, the
count of the read if it reads, and its `result`. -/
structure LOADED where
  name : List Nat
  read : Option Nat
  result : Nat
deriving DecidableEq, Repr

/-- The loader, from the command name to the read. `ERROR_ANY`, `T_FILE` and
`ERROR_NOT_FOUND` are constants of headers that are not among the sources;
`fs_get_entry` gives the result, the flags and the size of the entry found for a
name, `fs_read_file` the result of a read of `count` bytes of the named file. -/
def loader (ERROR_ANY T_FILE ERROR_NOT_FOUND : Nat)
    (fs_get_entry : List Nat → Nat × Nat × Nat) (fs_read_file : List Nat → Nat → Nat)
    (prog_file_name argv0 : List Nat) : LOADED :=
  let name := cstr (loader_file_name prog_file_name argv0)
  let e := fs_get_entry name
  if e.1 < ERROR_ANY then
    if e.2.1 &&& T_FILE ≠ 0 then
      ⟨name, some (loader_read_count e.2.2), fs_read_file name (loader_read_count e.2.2)⟩
    else ⟨name, none, ERROR_NOT_FOUND⟩
  else ⟨name, none, e.1⟩

/-! ## Service dispatcher (kernel.c, lines 223-406) -/

/-- The function `BCD_to_int(BCD)`: `h = (BCD >> 4) * 10; return h + (BCD & 0xF)`. -/
def BCD_to_int (BCD : Nat) : Nat :=
  let h := (BCD >>> 4) * 10
  h + (BCD &&& 0xF)

/-- Follows the claim's words: the byte with high nibble `n / 10` and low nibble `n % 10`. -/
def bcd_encode (n : Nat) : Nat :=
  16 * (n / 10) + n % 10

/-- Service codes and constants of `syscall.h` and `fs.h`, headers that are not
among the sources: their values are parameters. `ENTRY_NAME_SIZE` stands for
`sizeof(fi->entry->name)`. -/
structure SYSCALLS where
  SYSCALL_IO_GET_SCREEN_SIZE : Nat
  SYSCALL_IO_CLEAR_SCREEN : Nat
  SYSCALL_IO_OUT_CHAR : Nat
  SYSCALL_IO_OUT_CHAR_ATTR : Nat
  SYSCALL_IO_SET_CURSOR_POS : Nat
  SYSCALL_IO_GET_CURSOR_POS : Nat
  SYSCALL_IO_SET_SHOW_CURSOR : Nat
  SYSCALL_IO_IN_KEY : Nat
  SYSCALL_IO_OUT_CHAR_SERIAL : Nat
  SYSCALL_IO_IN_CHAR_SERIAL : Nat
  SYSCALL_IO_OUT_CHAR_DEBUG : Nat
  SYSCALL_MEM_ALLOCATE : Nat
  SYSCALL_MEM_FREE : Nat
  SYSCALL_LMEM_ALLOCATE : Nat
  SYSCALL_LMEM_FREE : Nat
  SYSCALL_LMEM_GET : Nat
  SYSCALL_LMEM_SET : Nat
  SYSCALL_FS_GET_INFO : Nat
  SYSCALL_FS_GET_ENTRY : Nat
  SYSCALL_FS_READ_FILE : Nat
  SYSCALL_FS_WRITE_FILE : Nat
  SYSCALL_FS_MOVE : Nat
  SYSCALL_FS_COPY : Nat
  SYSCALL_FS_DELETE : Nat
  SYSCALL_FS_CREATE_DIRECTORY : Nat
  SYSCALL_FS_LIST : Nat
  SYSCALL_FS_FORMAT : Nat
  SYSCALL_CLK_GET_TIME : Nat
  HIDE_CURSOR : Nat
  WAIT_KEY : Nat
  ENTRY_NAME_SIZE : Nat

/-- The service codes tested by the `switch` before `SYSCALL_CLK_GET_TIME`, in source order. -/
def SYSCALLS.before_clk (sc : SYSCALLS) : List Nat :=
  [sc.SYSCALL_IO_GET_SCREEN_SIZE,
    sc.SYSCALL_IO_CLEAR_SCREEN,
    sc.SYSCALL_IO_OUT_CHAR,
    sc.SYSCALL_IO_OUT_CHAR_ATTR,
    sc.SYSCALL_IO_SET_CURSOR_POS,
    sc.SYSCALL_IO_GET_CURSOR_POS,
    sc.SYSCALL_IO_SET_SHOW_CURSOR,
    sc.SYSCALL_IO_IN_KEY,
    sc.SYSCALL_IO_OUT_CHAR_SERIAL,
    sc.SYSCALL_IO_IN_CHAR_SERIAL,
    sc.SYSCALL_IO_OUT_CHAR_DEBUG,
    sc.SYSCALL_MEM_ALLOCATE,
    sc.SYSCALL_MEM_FREE,
    sc.SYSCALL_LMEM_ALLOCATE,
    sc.SYSCALL_LMEM_FREE,
    sc.SYSCALL_LMEM_GET,
    sc.SYSCALL_LMEM_SET,
    sc.SYSCALL_FS_GET_INFO,
    sc.SYSCALL_FS_GET_ENTRY,
    sc.SYSCALL_FS_READ_FILE,
    sc.SYSCALL_FS_WRITE_FILE,
    sc.SYSCALL_FS_MOVE,
    sc.SYSCALL_FS_COPY,
    sc.SYSCALL_FS_DELETE,
    sc.SYSCALL_FS_CREATE_DIRECTORY,
    sc.SYSCALL_FS_LIST,
    sc.SYSCALL_FS_FORMAT]

/-- The service codes handled by the `switch` of `kernel_service`, in source order. -/
def SYSCALLS.handled (sc : SYSCALLS) : List Nat :=
  sc.before_clk ++ [sc.SYSCALL_CLK_GET_TIME]

/-- Modelled from the spec: the parameter record `param` points to. The struct
declarations of `syscall.h` are missing; the record is the collection of the
fields the dispatcher reads or writes, by name, `word` being `*param` read as a
scalar. -/
structure PARAM where
  word : Nat
  x : Nat
  y : Nat
  px : Nat
  py : Nat
  c : Nat
  attr : Nat
  dst : Nat
  n : Nat
  disk_index : Nat
  info : Nat
  entry : Nat
  path : Nat
  parent : Nat
  disk : Nat
  buff : Nat
  offset : Nat
  count : Nat
  flags : Nat
  src : Nat
  hour : Nat
  minute : Nat
  second : Nat
  year : Nat
  month : Nat
  day : Nat
deriving DecidableEq, Repr

/-- The external collaborators the dispatcher invokes. -/
inductive COLLAB
  | io_clear_screen | io_out_char | io_out_char_attr | io_set_cursor_pos
  | io_get_cursor_pos | io_hide_cursor | io_show_cursor | io_in_key
  | io_out_char_serial | io_in_char_serial | lmem_getbyte | lmem_setbyte
  | fs_get_info | fs_get_entry | fs_read_file | fs_write_file | fs_move | fs_copy
  | fs_delete | fs_create_directory | fs_list | fs_format | get_time
deriving DecidableEq, Repr

/-- What the dispatcher does outside the two allocator tables and the parameter
record: the invocation of a collaborator with its arguments, the write
`*ptr = value` through a pointer held in the record, and the write of name,
flags and size of a storage entry to `fi->entry`. -/
inductive ACTION
  | call (f : COLLAB) (args : List Nat)
  | store (ptr value : Nat)
  | store_entry (ptr : Nat) (name : List Nat) (flags size : Nat)
deriving DecidableEq, Repr

/-- What the dispatcher reads from outside: the kernel globals `screen_width`,
`screen_height`, `serial_debug`, the value `ret f args` returned by a collaborator
call (for `io_in_key` the argument is the number of the poll), the entry filled
by `fs_get_entry` / `fs_list`, and the arrays filled by `get_time`. -/
structure ENV where
  screen_width : Nat
  screen_height : Nat
  serial_debug : Nat
  ret : COLLAB → List Nat → Nat
  entry_name : List Nat
  entry_flags : Nat
  entry_size : Nat
  BCDtime : List Nat
  BCDdate : List Nat

/-- State seen by the dispatcher: the two allocator tables, the content of the
parameter record, and the actions performed so far. -/
structure KSTATE where
  heap : List HEAPBLOCK
  lmem : List LMEMBLOCK
  record : PARAM
  trace : List ACTION
deriving DecidableEq, Repr

/-- Appends actions to the trace. -/
def KSTATE.emit (s : KSTATE) (acts : List ACTION) : KSTATE :=
  { s with trace := s.trace ++ acts }

/-- Loop of `SYSCALL_IO_IN_KEY`, `do { c = io_in_key(); } while(c==0 && mode==WAIT_KEY)`,
at poll number `k`; `none` when the fuel ends before a key arrives. -/
def in_key_loop (env : ENV) (mode WAIT_KEY : Nat) : Nat → Nat → KSTATE → Option (Nat × KSTATE)
  | 0, _, _ => none
  | fuel + 1, k, s =>
    let c := env.ret COLLAB.io_in_key [k]
    let s1 := s.emit [ACTION.call COLLAB.io_in_key []]
    if c = 0 ∧ mode = WAIT_KEY then in_key_loop env mode WAIT_KEY fuel (k + 1) s1
    else some (c, s1)

/-- The name written to `fi->entry->name`: the C string left by
`strcpy_s(fi->entry->name, entry.name, sizeof(fi->entry->name))`. -/
def entry_name_copy (sc : SYSCALLS) (env : ENV) : List Nat :=
  cstr (strcpy_s (List.replicate sc.ENTRY_NAME_SIZE 0) env.entry_name sc.ENTRY_NAME_SIZE).1

/-- The function `kernel_service(service, param)`: the returned value and the new
state, `none` when a loop does not end within `fuel`. `param` is the pointer,
`s.record` the record it points to; the casts `(uchar)` and `(uint)` keep the low
8 and 16 bits. The `switch` is the chain of tests of its `case` labels. -/
def kernel_service (sc : SYSCALLS) (env : ENV) (HEAPADDR fuel service param : Nat)
    (s : KSTATE) : Option (Nat × KSTATE) :=
  if service = sc.SYSCALL_IO_GET_SCREEN_SIZE then
    some (0, s.emit [ACTION.store s.record.px env.screen_width,
      ACTION.store s.record.py env.screen_height])
  else if service = sc.SYSCALL_IO_CLEAR_SCREEN then
    some (0, s.emit [ACTION.call COLLAB.io_clear_screen []])
  else if service = sc.SYSCALL_IO_OUT_CHAR then
    some (0, s.emit [ACTION.call COLLAB.io_out_char [s.record.word % 256]])
  else if service = sc.SYSCALL_IO_OUT_CHAR_ATTR then
    some (0, s.emit [ACTION.call COLLAB.io_out_char_attr
      [s.record.x, s.record.y, s.record.c, s.record.attr]])
  else if service = sc.SYSCALL_IO_SET_CURSOR_POS then
    some (0, s.emit [ACTION.call COLLAB.io_set_cursor_pos [s.record.x, s.record.y]])
  else if service = sc.SYSCALL_IO_GET_CURSOR_POS then
    some (0, s.emit [ACTION.call COLLAB.io_get_cursor_pos [s.record.px, s.record.py]])
  else if service = sc.SYSCALL_IO_SET_SHOW_CURSOR then
    if s.record.word % 65536 = sc.HIDE_CURSOR then
      some (0, s.emit [ACTION.call COLLAB.io_hide_cursor []])
    else some (0, s.emit [ACTION.call COLLAB.io_show_cursor []])
  else if service = sc.SYSCALL_IO_IN_KEY then
    in_key_loop env (s.record.word % 65536) sc.WAIT_KEY fuel 0 s
  else if service = sc.SYSCALL_IO_OUT_CHAR_SERIAL then
    some (0, s.emit [ACTION.call COLLAB.io_out_char_serial [s.record.word % 256]])
  else if service = sc.SYSCALL_IO_IN_CHAR_SERIAL then
    some (env.ret COLLAB.io_in_char_serial [],
      s.emit [ACTION.call COLLAB.io_in_char_serial []])
  else if service = sc.SYSCALL_IO_OUT_CHAR_DEBUG then
    if env.serial_debug ≠ 0 then
      some (0, s.emit [ACTION.call COLLAB.io_out_char_serial [s.record.word % 256]])
    else some (0, s)
  else if service = sc.SYSCALL_MEM_ALLOCATE then
    let r := heap_alloc HEAPADDR s.heap (s.record.word % 65536)
    some (r.2, { s with heap := r.1 })
  else if service = sc.SYSCALL_MEM_FREE then
    some (0, { s with heap := heap_free s.heap param })
  else if service = sc.SYSCALL_LMEM_ALLOCATE then
    let r := lmem_alloc s.lmem (s.record.n % U32)
    some (0, { s with lmem := r.1, record := { s.record with dst := r.2 } })
  else if service = sc.SYSCALL_LMEM_FREE then
    match lmem_free s.lmem s.record.dst with
    | some t => some (0, { s with lmem := t })
    | none => none
  else if service = sc.SYSCALL_LMEM_GET then
    some (env.ret COLLAB.lmem_getbyte [s.record.dst],
      s.emit [ACTION.call COLLAB.lmem_getbyte [s.record.dst]])
  else if service = sc.SYSCALL_LMEM_SET then
    some (0, s.emit [ACTION.call COLLAB.lmem_setbyte [s.record.dst, s.record.n % 256]])
  else if service = sc.SYSCALL_FS_GET_INFO then
    some (env.ret COLLAB.fs_get_info [s.record.disk_index, s.record.info],
      s.emit [ACTION.call COLLAB.fs_get_info [s.record.disk_index, s.record.info]])
  else if service = sc.SYSCALL_FS_GET_ENTRY then
    some (env.ret COLLAB.fs_get_entry [s.record.path, s.record.parent, s.record.disk],
      s.emit [ACTION.call COLLAB.fs_get_entry [s.record.path, s.record.parent, s.record.disk],
        ACTION.store_entry s.record.entry (entry_name_copy sc env) env.entry_flags
          env.entry_size])
  else if service = sc.SYSCALL_FS_READ_FILE then
    some (env.ret COLLAB.fs_read_file
        [s.record.buff, s.record.path, s.record.offset, s.record.count],
      s.emit [ACTION.call COLLAB.fs_read_file
        [s.record.buff, s.record.path, s.record.offset, s.record.count]])
  else if service = sc.SYSCALL_FS_WRITE_FILE then
    some (env.ret COLLAB.fs_write_file
        [s.record.buff, s.record.path, s.record.offset, s.record.count, s.record.flags],
      s.emit [ACTION.call COLLAB.fs_write_file
        [s.record.buff, s.record.path, s.record.offset, s.record.count, s.record.flags]])
  else if service = sc.SYSCALL_FS_MOVE then
    some (env.ret COLLAB.fs_move [s.record.src, s.record.dst],
      s.emit [ACTION.call COLLAB.fs_move [s.record.src, s.record.dst]])
  else if service = sc.SYSCALL_FS_COPY then
    some (env.ret COLLAB.fs_copy [s.record.src, s.record.dst],
      s.emit [ACTION.call COLLAB.fs_copy [s.record.src, s.record.dst]])
  else if service = sc.SYSCALL_FS_DELETE then
    some (env.ret COLLAB.fs_delete [param], s.emit [ACTION.call COLLAB.fs_delete [param]])
  else if service = sc.SYSCALL_FS_CREATE_DIRECTORY then
    some (env.ret COLLAB.fs_create_directory [param],
      s.emit [ACTION.call COLLAB.fs_create_directory [param]])
  else if service = sc.SYSCALL_FS_LIST then
    some (env.ret COLLAB.fs_list [s.record.path, s.record.n],
      s.emit [ACTION.call COLLAB.fs_list [s.record.path, s.record.n],
        ACTION.store_entry s.record.entry (entry_name_copy sc env) env.entry_flags
          env.entry_size])
  else if service = sc.SYSCALL_FS_FORMAT then
    some (env.ret COLLAB.fs_format [s.record.word % 65536],
      s.emit [ACTION.call COLLAB.fs_format [s.record.word % 65536]])
  else if service = sc.SYSCALL_CLK_GET_TIME then
    some (0, { s.emit [ACTION.call COLLAB.get_time []] with
      record := { s.record with
        hour := BCD_to_int (env.BCDtime.getD 0 0),
        minute := BCD_to_int (env.BCDtime.getD 1 0),
        second := BCD_to_int (env.BCDtime.getD 2 0),
        year := BCD_to_int (env.BCDdate.getD 0 0) + 2000,
        month := BCD_to_int (env.BCDdate.getD 1 0),
        day := BCD_to_int (env.BCDdate.getD 2 0) } })
  else some (0, s)

/-- A sample assignment of service codes, pairwise distinct. -/
def syscalls_sample : SYSCALLS :=
  ⟨0, 1, 2, 3, 4, 5, 6, 7, 8, 9, 10, 11, 12, 13, 14, 15, 16, 17, 18, 19, 20, 21, 22, 23, 24, 25, 26, 27, 0, 1, 15⟩

/-- A sample environment: the clock reads 12:34:56 on 2024-11-30 in BCD. -/
def env_sample : ENV :=
  ⟨80, 50, 0, fun _ _ => 0, [], 0, 0, [0x12, 0x34, 0x56], [0x24, 0x11, 0x30]⟩

/-- A parameter record with every field 0. -/
def param_zero : PARAM :=
  ⟨0, 0, 0, 0, 0, 0, 0, 0, 0, 0, 0, 0, 0, 0, 0, 0, 0, 0, 0, 0, 0, 0, 0, 0, 0, 0⟩

/-- The state after `heap_init` and `lmem_init`, with the zero record and no action. -/
def kstate_init : KSTATE :=
  ⟨heap_init, lmem_init, param_zero, []⟩

/-- The table after the statements `lmem_free` executes on a match at index `i`:
`lmem[i]` zeroed, the `memcpy` of the entries after `i` one slot down, and the
last slot zeroed. -/
def lmem_free_step (lmem : List LMEMBLOCK) (i : Nat) : List LMEMBLOCK :=
  (memcpy ⟨0, 0⟩ (lmem.set i ⟨0, 0⟩) i (i + 1) (LMEM_MAX_BLOCK - i - 1)).1.set
    (LMEM_MAX_BLOCK - 1) ⟨0, 0⟩

/-- The table `{0x10000,16}`, then `k` descriptors `{0x10010 + 2 j, 2}`, `j < k`,
then `{0x11010,16}` and the zero-size descriptor `{0x11020,0}`, then zeroed
slots: 64 descriptors for `k ≤ 61`, all of them live for `k = 61`. -/
def lmem_gap_fill (k : Nat) : List LMEMBLOCK :=
  ⟨0x10000, 16⟩ :: ((List.range k).map (fun j => ⟨0x10010 + 2 * j, 2⟩) ++
    (⟨0x11010, 16⟩ :: ⟨0x11020, 0⟩ :: List.replicate (61 - k) ⟨0, 0⟩))

/-- Table after `lmem_alloc(16)`, `lmem_alloc(4096)`, `lmem_alloc(16)`,
`lmem_alloc(0xFFFFFFF8)` on the empty table. -/
def lmem_zero_size_state : List LMEMBLOCK :=
  (lmem_alloc (lmem_alloc (lmem_alloc (lmem_alloc lmem_init 16).1 4096).1 16).1 0xFFFFFFF8).1

/-! ## Theorems on the region allocator -/

/-- C1: after `lmem_alloc(16)`, `lmem_alloc(0xFFFFFFF0)`, `lmem_alloc(16)` on the
empty table the reachable table holds `{0x10000,16}`, `{0x10010,0xFFFFFFF0}`,
`{0x10000,16}`: its live entries are neither sorted by start nor disjoint. -/
theorem lmem_wrap_state_unsorted :
    LmemReachable lmem_wrap_state ∧
    lget lmem_wrap_state 0 = ⟨0x10000, 16⟩ ∧
    lget lmem_wrap_state 1 = ⟨0x10010, 0xFFFFFFF0⟩ ∧
    lget lmem_wrap_state 2 = ⟨0x10000, 16⟩ ∧
    ¬ lmem_sorted lmem_wrap_state ∧ ¬ lmem_disjoint lmem_wrap_state := by
  have h0 : lget lmem_wrap_state 0 = ⟨0x10000, 16⟩ := by decide
  have h1 : lget lmem_wrap_state 1 = ⟨0x10010, 0xFFFFFFF0⟩ := by decide
  have h2 : lget lmem_wrap_state 2 = ⟨0x10000, 16⟩ := by decide
  refine ⟨?_, h0, h1, h2, ?_, ?_⟩
  · exact LmemReachable.alloc _ 16 (by decide)
      (LmemReachable.alloc _ 0xFFFFFFF0 (by decide)
        (LmemReachable.alloc _ 16 (by decide) LmemReachable.init))
  · intro hs
    have := hs 0 2 (by decide) (by decide) (by simp [lmem_live, h0]) (by simp [lmem_live, h2])
    rw [h0, h2] at this
    exact absurd this (by decide)
  · intro hd
    have := hd 0 2 (by decide) (by decide) (by decide) (by simp [lmem_live, h0])
      (by simp [lmem_live, h2])
    rw [h0, h2] at this
    exact absurd this (by decide)

/-- C2: on the empty table `lmem_alloc(10)` records size 20, which is not a
multiple of 16, while `lmem_alloc(16)` records size 16: the recorded size is
`size + size % 16`, not the next multiple of 16. -/
theorem lmem_alloc_10_records_20 :
    lget (lmem_alloc lmem_init 10).1 0 = ⟨LMEM_START, 20⟩ ∧
    lget (lmem_alloc lmem_init 16).1 0 = ⟨LMEM_START, 16⟩ ∧
    20 % LMEM_BLOCK_SIZE ≠ 0 ∧ lmem_adjust 10 = 20 := by
  decide

/-- C3: once `lmem_alloc(0x100000)` has taken the whole region, `lmem_alloc(16)`
still succeeds and returns `LMEM_LIMIT` itself: the interval recorded,
`[0x110000, 0x110010)`, lies above the ceiling. -/
theorem lmem_alloc_above_limit :
    LmemReachable lmem_whole_state ∧
    lget lmem_whole_state 0 = ⟨LMEM_START, 0x100000⟩ ∧
    (lmem_alloc lmem_whole_state 16).2 = LMEM_LIMIT ∧
    lget (lmem_alloc lmem_whole_state 16).1 1 = ⟨LMEM_LIMIT, 16⟩ ∧
    ¬ (LMEM_LIMIT + 16 ≤ LMEM_LIMIT) := by
  refine ⟨LmemReachable.alloc _ 0x100000 (by decide) LmemReachable.init, ?_, ?_, ?_, ?_⟩ <;>
    decide

/-- C4: (a) after `lmem_alloc(32)`, `lmem_alloc(16)`, `lmem_free(0x10000)` the
table is not full and holds the single entry `{0x10020,16}`, so the gap
`[0x10000,0x10020)` before the first entry is 32 bytes wide, yet `lmem_alloc(16)`
returns `0x10030`, the end of the last entry. (b) After three `lmem_alloc(16)` and
`lmem_free(0x10010)` the gap `[0x10010,0x10020)` is exactly 16 bytes wide, yet
`lmem_alloc(16)` returns `0x10030`. In both the lowest gap of the spec is another
address. -/
theorem lmem_alloc_skips_lowest_gap :
    (∃ t, lmem_free lmem_two_state 0x10000 = some t ∧ LmemReachable t ∧
      lmem_entries t = [⟨0x10020, 16⟩] ∧ (lget t (LMEM_MAX_BLOCK - 1)).size = 0 ∧
      spec_first_gap 16 LMEM_START (lmem_entries t) = 0x10000 ∧
      (lmem_alloc t 16).2 = 0x10030) ∧
    (∃ t, lmem_free lmem_three_state 0x10010 = some t ∧ LmemReachable t ∧
      lmem_entries t = [⟨0x10000, 16⟩, ⟨0x10020, 16⟩] ∧
      (lget t (LMEM_MAX_BLOCK - 1)).size = 0 ∧
      spec_first_gap 16 LMEM_START (lmem_entries t) = 0x10010 ∧
      (lmem_alloc t 16).2 = 0x10030) := by
  have r2 : LmemReachable lmem_two_state :=
    LmemReachable.alloc _ 16 (by decide) (LmemReachable.alloc _ 32 (by decide) LmemReachable.init)
  have r3 : LmemReachable lmem_three_state :=
    LmemReachable.alloc _ 16 (by decide) (LmemReachable.alloc _ 16 (by decide)
      (LmemReachable.alloc _ 16 (by decide) LmemReachable.init))
  constructor
  · have hf : lmem_free lmem_two_state 0x10000 =
        some (lmem_init.set 0 ⟨0x10020, 16⟩) := by decide
    exact ⟨_, hf, LmemReachable.free _ _ 0x10000 (by decide) r2 hf,
      by decide, by decide, by decide, by decide⟩
  · have hf : lmem_free lmem_three_state 0x10010 =
        some ((lmem_init.set 0 ⟨0x10000, 16⟩).set 1 ⟨0x10020, 16⟩) := by decide
    exact ⟨_, hf, LmemReachable.free _ _ 0x10010 (by decide) r3 hf,
      by decide, by decide, by decide, by decide⟩

/-! ## Lemmas on the block heap -/

theorem hget_set_ne (heap : List HEAPBLOCK) (j i : Nat) (v : HEAPBLOCK) (h : i ≠ j) :
    hget (heap.set j v) i = hget heap i := by
  simp [hget, List.getD_eq_getElem?_getD, List.getElem?_set_ne (Ne.symm h)]

theorem hget_set_eq (heap : List HEAPBLOCK) (j : Nat) (v : HEAPBLOCK) (h : j < heap.length) :
    hget (heap.set j v) j = v := by
  simp [hget, List.getD_eq_getElem?_getD, h]

theorem hget_heap_init (i : Nat) : hget heap_init i = ⟨0, 0⟩ := by
  unfold hget heap_init
  rw [List.getD_eq_getElem?_getD, List.getElem?_replicate]
  split <;> rfl

theorem length_heap_init : heap_init.length = HEAP_MAX_BLOCK := by
  simp [heap_init]

/-- Two tables of the same length with the same slots are equal. -/
theorem heap_ext (h1 h2 : List HEAPBLOCK) (hl : h1.length = h2.length)
    (h : ∀ i, i < h1.length → hget h1 i = hget h2 i) : h1 = h2 := by
  apply List.ext_getElem hl
  intro n a b
  have := h n a
  simp only [hget, List.getD_eq_getElem?_getD, List.getElem?_eq_getElem a,
    List.getElem?_eq_getElem b, Option.getD_some] at this
  exact this

theorem length_heap_init_loop (k i : Nat) (heap : List HEAPBLOCK) :
    (heap_init_loop k i heap).length = heap.length := by
  induction k generalizing i heap with
  | zero => rfl
  | succ k ih => simp [heap_init_loop, ih]

theorem hget_heap_init_loop (k i : Nat) (heap : List HEAPBLOCK) (j : Nat)
    (h1 : i ≤ j) (h2 : j < i + k) (h3 : i + k ≤ heap.length) :
    hget (heap_init_loop k i heap) j = ⟨0, 0⟩ ∨
      (j < i ∧ hget (heap_init_loop k i heap) j = hget heap j) := by
  induction k generalizing i heap with
  | zero => omega
  | succ k ih =>
    simp only [heap_init_loop]
    by_cases hij : j = i
    · subst hij
      left
      have hout : ∀ (n a : Nat) (t : List HEAPBLOCK), j < a →
          hget (heap_init_loop n a t) j = hget t j := by
        intro n
        induction n with
        | zero => intro a t _; rfl
        | succ n ihn =>
          intro a t ha
          simp only [heap_init_loop]
          rw [ihn (a + 1) _ (by omega), hget_set_ne _ _ _ _ (by omega)]
      rw [hout k (j + 1) _ (by omega), hget_set_eq _ _ _ (by omega)]
    · rcases ih (i + 1) (heap.set i ⟨0, 0⟩) (by omega) (by omega) (by simp; omega) with h | h
      · exact Or.inl h
      · omega

/-- The loop of `heap_init`, run on a table of `HEAP_MAX_BLOCK` slots with any
contents, leaves the table `heap_init`. -/
theorem heap_init_loop_eq (heap : List HEAPBLOCK) (hlen : heap.length = HEAP_MAX_BLOCK) :
    heap_init_loop HEAP_MAX_BLOCK 0 heap = heap_init := by
  apply heap_ext
  · rw [length_heap_init_loop, hlen, length_heap_init]
  · intro j hj
    rw [length_heap_init_loop, hlen] at hj
    rw [hget_heap_init]
    rcases hget_heap_init_loop HEAP_MAX_BLOCK 0 heap j (by omega) (by omega) (by omega) with h | h
    · exact h
    · omega

theorem length_heap_claim (addr : Nat) (n j : Nat) (heap : List HEAPBLOCK) :
    (heap_claim addr n j heap).length = heap.length := by
  induction n generalizing j heap with
  | zero => rfl
  | succ n ih => simp [heap_claim, ih]

theorem hget_heap_claim_out (addr : Nat) (n j : Nat) (heap : List HEAPBLOCK) (i : Nat)
    (h : i < j ∨ j + n ≤ i) : hget (heap_claim addr n j heap) i = hget heap i := by
  induction n generalizing j heap with
  | zero => rfl
  | succ n ih =>
    simp only [heap_claim]
    rw [ih (j + 1) _ (by omega), hget_set_ne _ _ _ _ (by omega)]

theorem hget_heap_claim_in (addr : Nat) (n j : Nat) (heap : List HEAPBLOCK) (i : Nat)
    (h1 : j ≤ i) (h2 : i < j + n) (h3 : j + n ≤ heap.length) :
    hget (heap_claim addr n j heap) i = ⟨1, addr⟩ := by
  induction n generalizing j heap with
  | zero => omega
  | succ n ih =>
    simp only [heap_claim]
    by_cases hij : i = j
    · subst hij
      rw [hget_heap_claim_out _ _ _ _ _ (by omega), hget_set_eq _ _ _ (by omega)]
    · exact ih (j + 1) _ (by omega) (by omega) (by simp; omega)

theorem heap_n_alloc_eq (size : Nat) : heap_n_alloc size = heap_needed size := by
  unfold heap_n_alloc heap_needed
  have hb : HEAP_BLOCK_SIZE = 64 := by decide
  rw [hb]
  split <;> omega

theorem heap_needed_pos (size : Nat) (h : 0 < size) : 0 < heap_needed size := by
  unfold heap_needed
  have hb : HEAP_BLOCK_SIZE = 64 := by decide
  rw [hb]
  omega

/-- The search loop, entered at index `i` with a current run of `n_found` free
blocks starting at `s`, either fails with the table unchanged when no window of
`n_alloc` free blocks exists, or claims the lowest such window. -/
theorem heap_alloc_loop_spec (HEAPADDR n_alloc : Nat) (heap : List HEAPBLOCK)
    (hn : 0 < n_alloc) (k : Nat) :
    ∀ (i n_found s : Nat), i + k = HEAP_MAX_BLOCK → s + n_found = i → n_found < n_alloc →
      FreeRun heap s n_found → (∀ p, p + 1 = s → (hget heap p).used ≠ 0) →
      (∀ t, t + n_alloc ≤ i → ¬ FreeRun heap t n_alloc) →
      (heap_alloc_loop HEAPADDR n_alloc heap k i n_found = (heap, 0) ∧
          ¬ HasFreeRun heap n_alloc) ∨
      ∃ a, AllocAt HEAPADDR n_alloc heap a (heap_alloc_loop HEAPADDR n_alloc heap k i n_found) := by
  induction k with
  | zero =>
    intro i n_found s hik _ _ _ _ hno
    left
    refine ⟨rfl, ?_⟩
    rintro ⟨t, ht, hrun⟩
    exact hno t (by omega) hrun
  | succ k ih =>
    intro i n_found s hik hs hlt hrun hleft hno
    simp only [heap_alloc_loop]
    by_cases hu : (hget heap i).used ≠ 0
    · rw [if_pos hu]
      apply ih (i + 1) 0 (i + 1) (by omega) (by omega) hn
      · intro j h1 h2; omega
      · intro p hp
        have : p = i := by omega
        subst this; exact hu
      · intro t ht hr
        by_cases h : t + n_alloc ≤ i
        · exact hno t h hr
        · exact hu (hr i (by omega) (by omega))
    · rw [if_neg hu]
      have hfree : (hget heap i).used = 0 := by
        by_contra h; exact hu h
      by_cases hge : n_found + 1 ≥ n_alloc
      · rw [if_pos hge]
        right
        refine ⟨s, by omega, ?_, ?_, hleft, ?_⟩
        · intro j h1 h2
          by_cases hj : j = i
          · subst hj; exact hfree
          · exact hrun j h1 (by omega)
        · have e1 : i + 1 - n_alloc = s := by omega
          have e2 : i + 1 - s = n_alloc := by omega
          simp only [e1, e2]
        · intro t ht hr
          exact hno t (by omega) hr
      · rw [if_neg hge]
        apply ih (i + 1) (n_found + 1) s (by omega) (by omega) (by omega)
        · intro j h1 h2
          by_cases hj : j = i
          · subst hj; exact hfree
          · exact hrun j h1 (by omega)
        · exact hleft
        · intro t ht hr
          by_cases h : t + n_alloc ≤ i
          · exact hno t h hr
          · have hs0 : 0 < s := by omega
            exact hleft (s - 1) (by omega) (hr (s - 1) (by omega) (by omega))

/-- Outcome of `heap_alloc` for a non-zero size. -/
theorem heap_alloc_spec (HEAPADDR : Nat) (heap : List HEAPBLOCK) (size : Nat) (hsz : 0 < size) :
    (heap_alloc HEAPADDR heap size = (heap, 0) ∧ ¬ HasFreeRun heap (heap_needed size)) ∨
    ∃ a, AllocAt HEAPADDR (heap_needed size) heap a (heap_alloc HEAPADDR heap size) := by
  unfold heap_alloc
  rw [if_neg (by omega), heap_n_alloc_eq]
  apply heap_alloc_loop_spec HEAPADDR (heap_needed size) heap (heap_needed_pos size hsz)
    HEAP_MAX_BLOCK 0 0 0 (by omega) (by omega) (heap_needed_pos size hsz)
  · intro j h1 h2; omega
  · intro p hp; omega
  · intro t ht hr
    have := heap_needed_pos size hsz
    omega

theorem hget_used_lt_length (heap : List HEAPBLOCK) (j : Nat) (h : (hget heap j).used ≠ 0) :
    j < heap.length := by
  by_contra hlt
  apply h
  simp [hget, List.getD_eq_getElem?_getD, List.getElem?_eq_none (Nat.le_of_not_lt hlt)]

theorem length_heap_free_loop (ptr k i : Nat) (heap : List HEAPBLOCK) :
    (heap_free_loop ptr k i heap).length = heap.length := by
  induction k generalizing i heap with
  | zero => rfl
  | succ k ih =>
    simp only [heap_free_loop]
    split
    · rw [ih]; simp
    · rw [ih]

/-- Effect of the loop of `heap_free` on slot `j`. -/
theorem hget_heap_free_loop (ptr k i : Nat) (heap : List HEAPBLOCK) (j : Nat) :
    hget (heap_free_loop ptr k i heap) j =
      if i ≤ j ∧ j < i + k ∧ (hget heap j).ptr = ptr ∧ (hget heap j).used ≠ 0 then ⟨0, 0⟩
      else hget heap j := by
  induction k generalizing i heap with
  | zero =>
    simp only [heap_free_loop]
    rw [if_neg (by omega)]
  | succ k ih =>
    simp only [heap_free_loop]
    by_cases hc : (hget heap i).ptr = ptr ∧ (hget heap i).used ≠ 0
    · rw [if_pos hc, ih]
      by_cases hji : j = i
      · subst hji
        rw [if_neg (by omega), if_pos ⟨by omega, by omega, hc.1, hc.2⟩,
          hget_set_eq _ _ _ (hget_used_lt_length _ _ hc.2)]
      · rw [hget_set_ne _ _ _ _ hji]
        by_cases hc2 : (hget heap j).ptr = ptr ∧ (hget heap j).used ≠ 0
        · by_cases hr : i ≤ j ∧ j < i + (k + 1)
          · rw [if_pos ⟨by omega, by omega, hc2.1, hc2.2⟩, if_pos ⟨hr.1, hr.2, hc2.1, hc2.2⟩]
          · rw [if_neg (by omega), if_neg (by omega)]
        · rw [if_neg (fun h => hc2 ⟨h.2.2.1, h.2.2.2⟩), if_neg (fun h => hc2 ⟨h.2.2.1, h.2.2.2⟩)]
    · rw [if_neg hc, ih]
      by_cases hji : j = i
      · subst hji
        rw [if_neg (by omega), if_neg (fun h => hc ⟨h.2.2.1, h.2.2.2⟩)]
      · by_cases hc2 : (hget heap j).ptr = ptr ∧ (hget heap j).used ≠ 0
        · by_cases hr : i ≤ j ∧ j < i + (k + 1)
          · rw [if_pos ⟨by omega, by omega, hc2.1, hc2.2⟩, if_pos ⟨hr.1, hr.2, hc2.1, hc2.2⟩]
          · rw [if_neg (by omega), if_neg (by omega)]
        · rw [if_neg (fun h => hc2 ⟨h.2.2.1, h.2.2.2⟩), if_neg (fun h => hc2 ⟨h.2.2.1, h.2.2.2⟩)]

theorem length_heap_free (heap : List HEAPBLOCK) (ptr : Nat) :
    (heap_free heap ptr).length = heap.length := by
  unfold heap_free
  split
  · exact length_heap_free_loop _ _ _ _
  · rfl

/-- Effect of `heap_free` on slot `j`. -/
theorem hget_heap_free (heap : List HEAPBLOCK) (ptr j : Nat) :
    hget (heap_free heap ptr) j =
      if ptr ≠ 0 ∧ j < HEAP_MAX_BLOCK ∧ (hget heap j).ptr = ptr ∧ (hget heap j).used ≠ 0
      then ⟨0, 0⟩ else hget heap j := by
  unfold heap_free
  by_cases hp : ptr ≠ 0
  · rw [if_pos hp, hget_heap_free_loop]
    by_cases hc : j < HEAP_MAX_BLOCK ∧ (hget heap j).ptr = ptr ∧ (hget heap j).used ≠ 0
    · rw [if_pos ⟨by omega, by omega, hc.2.1, hc.2.2⟩, if_pos ⟨hp, hc⟩]
    · rw [if_neg (fun h => hc ⟨by omega, h.2.2.1, h.2.2.2⟩), if_neg (fun h => hc h.2)]
  · rw [if_neg hp, if_neg (fun h => hp h.1)]

theorem heap_inv_init (HEAPADDR : Nat) : HeapInv HEAPADDR heap_init := by
  intro i _
  rw [hget_heap_init]
  exact ⟨fun _ => rfl, fun h => absurd rfl h⟩

/-- Claiming a free window keeps the owner invariant. -/
theorem heap_inv_claim (HEAPADDR n a : Nat) (heap : List HEAPBLOCK)
    (hlen : heap.length = HEAP_MAX_BLOCK) (hinv : HeapInv HEAPADDR heap)
    (ha : a + n ≤ HEAP_MAX_BLOCK) (hrun : FreeRun heap a n) :
    HeapInv HEAPADDR (heap_claim (HEAPADDR + a * HEAP_BLOCK_SIZE) n a heap) := by
  intro i hi
  by_cases hin : a ≤ i ∧ i < a + n
  · rw [hget_heap_claim_in _ _ _ _ _ hin.1 hin.2 (by omega)]
    refine ⟨fun h => absurd h (by simp), fun _ => ⟨a, hin.1, by simp [Nat.mul_comm], ?_⟩⟩
    intro j h1 h2
    rw [hget_heap_claim_in _ _ _ _ _ h1 (by omega) (by omega)]
    exact ⟨by simp, rfl⟩
  · rw [hget_heap_claim_out _ _ _ _ _ (by omega)]
    refine ⟨(hinv i hi).1, fun hu => ?_⟩
    obtain ⟨k, hk, hp, hall⟩ := (hinv i hi).2 hu
    refine ⟨k, hk, hp, ?_⟩
    intro j h1 h2
    have hj := hall j h1 h2
    have hout : j < a ∨ a + n ≤ j := by
      by_contra hc
      exact hj.1 (hrun j (by omega) (by omega))
    rw [hget_heap_claim_out _ _ _ _ _ hout]
    exact hj

theorem heap_inv_alloc (HEAPADDR : Nat) (heap : List HEAPBLOCK) (size : Nat)
    (hlen : heap.length = HEAP_MAX_BLOCK) (hinv : HeapInv HEAPADDR heap) :
    (heap_alloc HEAPADDR heap size).1.length = HEAP_MAX_BLOCK ∧
    HeapInv HEAPADDR (heap_alloc HEAPADDR heap size).1 := by
  by_cases hsz : size = 0
  · simp only [heap_alloc, if_pos hsz]
    exact ⟨hlen, hinv⟩
  · rcases heap_alloc_spec HEAPADDR heap size (by omega) with ⟨he, _⟩ | ⟨a, ha, hrun, he, _, _⟩
    · rw [he]; exact ⟨hlen, hinv⟩
    · rw [he]
      exact ⟨by rw [length_heap_claim]; exact hlen, heap_inv_claim _ _ _ _ hlen hinv ha hrun⟩

theorem heap_inv_free (HEAPADDR : Nat) (heap : List HEAPBLOCK) (ptr : Nat)
    (hinv : HeapInv HEAPADDR heap) : HeapInv HEAPADDR (heap_free heap ptr) := by
  intro i hi
  rw [hget_heap_free]
  by_cases hc : ptr ≠ 0 ∧ i < HEAP_MAX_BLOCK ∧ (hget heap i).ptr = ptr ∧ (hget heap i).used ≠ 0
  · rw [if_pos hc]
    exact ⟨fun _ => rfl, fun h => absurd rfl h⟩
  · rw [if_neg hc]
    refine ⟨(hinv i hi).1, fun hu => ?_⟩
    obtain ⟨k, hk, hp, hall⟩ := (hinv i hi).2 hu
    refine ⟨k, hk, hp, ?_⟩
    intro j h1 h2
    have hj := hall j h1 h2
    rw [hget_heap_free, if_neg]
    · exact hj
    · intro h
      exact hc ⟨h.1, hi, by rw [← hj.2]; exact h.2.2.1, hu⟩

/-- Every reachable block table has `HEAP_MAX_BLOCK` slots and satisfies the owner invariant. -/
theorem heap_reachable_inv (HEAPADDR : Nat) (heap : List HEAPBLOCK)
    (h : HeapReachable HEAPADDR heap) :
    heap.length = HEAP_MAX_BLOCK ∧ HeapInv HEAPADDR heap := by
  induction h with
  | init => exact ⟨length_heap_init, heap_inv_init HEAPADDR⟩
  | alloc heap size _ ih => exact heap_inv_alloc HEAPADDR heap size ih.1 ih.2
  | free heap ptr _ ih =>
    exact ⟨by rw [length_heap_free]; exact ih.1, heap_inv_free HEAPADDR heap ptr ih.2⟩

/-- In a table satisfying the owner invariant, no in-use slot is owned by the
address of a free slot. -/
theorem heap_inv_owner_fresh (HEAPADDR : Nat) (heap : List HEAPBLOCK)
    (hinv : HeapInv HEAPADDR heap) (a : Nat) (hfree : (hget heap a).used = 0)
    (i : Nat) (hi : i < HEAP_MAX_BLOCK) (hu : (hget heap i).used ≠ 0) :
    (hget heap i).ptr ≠ HEAPADDR + a * HEAP_BLOCK_SIZE := by
  intro hp
  obtain ⟨k, hk, hpk, hall⟩ := (hinv i hi).2 hu
  have hb : HEAP_BLOCK_SIZE = 64 := by decide
  rw [hp, hb] at hpk
  have hka : k = a := by omega
  subst hka
  exact (hall k (Nat.le_refl _) hk).1 hfree

theorem free_run_heap_init (s n : Nat) : FreeRun heap_init s n := by
  intro j _ _
  rw [hget_heap_init]

/-- On the initial table every request of at most `HEAP_MAX_BLOCK` blocks is
served from slot 0: the returned address is the arena address. -/
theorem heap_alloc_heap_init (HEAPADDR size : Nat) (hsz : 0 < size)
    (hn : heap_needed size ≤ HEAP_MAX_BLOCK) :
    (heap_alloc HEAPADDR heap_init size).2 = HEAPADDR := by
  rcases heap_alloc_spec HEAPADDR heap_init size hsz with ⟨_, hno⟩ | ⟨a, _, _, he, _, hlow⟩
  · exact absurd ⟨0, by omega, free_run_heap_init _ _⟩ hno
  · have ha : a = 0 := by
      by_contra h
      exact hlow 0 (by omega) (free_run_heap_init _ _)
    subst ha
    rw [he]
    simp

/-- Freeing the address just returned by a successful `heap_alloc` on a table
that satisfies the owner invariant gives back the table before the call. -/
theorem heap_free_alloc_of_inv (HEAPADDR : Nat) (heap : List HEAPBLOCK) (size : Nat)
    (hlen : heap.length = HEAP_MAX_BLOCK) (hinv : HeapInv HEAPADDR heap)
    (hok : (heap_alloc HEAPADDR heap size).2 ≠ 0) :
    heap_free (heap_alloc HEAPADDR heap size).1 (heap_alloc HEAPADDR heap size).2 = heap := by
  by_cases hsz : size = 0
  · subst hsz
    exact absurd rfl hok
  rcases heap_alloc_spec HEAPADDR heap size (by omega) with ⟨he, _⟩ | ⟨a, ha, hrun, he, _, _⟩
  · rw [he] at hok
    exact absurd rfl hok
  · rw [he] at hok ⊢
    have hpos := heap_needed_pos size (by omega)
    apply heap_ext
    · rw [length_heap_free, length_heap_claim]
    · intro j hj
      rw [length_heap_free, length_heap_claim, hlen] at hj
      rw [hget_heap_free]
      by_cases hin : a ≤ j ∧ j < a + heap_needed size
      · rw [hget_heap_claim_in _ _ _ _ _ hin.1 hin.2 (by omega)]
        rw [if_pos ⟨hok, hj, rfl, by simp⟩]
        have h0 := hrun j hin.1 hin.2
        have h1 := (hinv j hj).1 h0
        cases hb : hget heap j with
        | mk u q =>
          rw [hb] at h0 h1
          simp only at h0 h1
          rw [h0, h1]
      · rw [hget_heap_claim_out _ _ _ _ _ (by omega), if_neg]
        intro h
        exact heap_inv_owner_fresh HEAPADDR heap hinv a (hrun a (Nat.le_refl _) (by omega))
          j hj h.2.2.2 h.2.2.1

/-- Counting, among the indices below `N`, those that satisfy a predicate true
exactly from `m` on. -/
theorem countP_range_from (p : Nat → Bool) (m N : Nat)
    (h : ∀ i, i < N → (p i = true ↔ m ≤ i)) : (List.range N).countP p = N - m := by
  induction N with
  | zero => simp
  | succ N ih =>
    rw [List.range_succ, List.countP_append, ih (fun i hi => h i (by omega))]
    by_cases hm : m ≤ N
    · have : p N = true := (h N (by omega)).mpr hm
      simp [List.countP_cons, this]
      omega
    · have : ¬ p N = true := fun hp => hm ((h N (by omega)).mp hp)
      simp [List.countP_cons, this]
      omega

/-- After allocations only, the in-use slots are a prefix `0 .. m-1` of the table. -/
theorem heap_alloc_only_prefix (HEAPADDR : Nat) (heap : List HEAPBLOCK)
    (h : HeapAllocOnly HEAPADDR heap) :
    heap.length = HEAP_MAX_BLOCK ∧
    ∃ m, m ≤ HEAP_MAX_BLOCK ∧ ∀ i, ((hget heap i).used ≠ 0 ↔ i < m) := by
  induction h with
  | init =>
    refine ⟨length_heap_init, 0, by omega, fun i => ?_⟩
    rw [hget_heap_init]
    simp
  | alloc heap size _ ih =>
    obtain ⟨hlen, m, hm, hpre⟩ := ih
    by_cases hsz : size = 0
    · simp only [heap_alloc, if_pos hsz]
      exact ⟨hlen, m, hm, hpre⟩
    · rcases heap_alloc_spec HEAPADDR heap size (by omega) with
        ⟨he, _⟩ | ⟨a, ha, hrun, he, _, hlow⟩
      · rw [he]; exact ⟨hlen, m, hm, hpre⟩
      · have hpos := heap_needed_pos size (by omega)
        have hfm : FreeRun heap m (heap_needed size) := by
          intro j h1 _
          by_contra hu
          have := (hpre j).mp hu
          omega
        have ham : a = m := by
          have h1 : ¬ a < m := fun hlt =>
            (hpre a).mpr hlt (hrun a (Nat.le_refl _) (by omega))
          have h2 : ¬ m < a := fun hlt => hlow m hlt hfm
          omega
        subst ham
        rw [he]
        refine ⟨by rw [length_heap_claim]; exact hlen, a + heap_needed size, ha, fun i => ?_⟩
        by_cases hin : a ≤ i ∧ i < a + heap_needed size
        · rw [hget_heap_claim_in _ _ _ _ _ hin.1 hin.2 (by omega)]
          simp
          omega
        · rw [hget_heap_claim_out _ _ _ _ _ (by omega), hpre i]
          omega

/-! ## Theorems on the block heap -/

/-- C5: for every block table and every size > 0 for which `heap_alloc` succeeds,
there is a first slot `s` such that the `ceil(size / 64)` slots from `s` on were
all free before the call and are afterwards in use with the returned address as
owner, the returned address is the arena base plus 64 times `s`, and every other
slot (and the length of the table) is unchanged. -/
theorem heap_alloc_claims_needed_blocks (HEAPADDR : Nat) (heap : List HEAPBLOCK) (size : Nat)
    (hlen : heap.length = HEAP_MAX_BLOCK) (hsz : 0 < size)
    (hok : (heap_alloc HEAPADDR heap size).2 ≠ 0) :
    ∃ s, s + heap_needed size ≤ HEAP_MAX_BLOCK ∧
      (heap_alloc HEAPADDR heap size).2 = HEAPADDR + HEAP_BLOCK_SIZE * s ∧
      (∀ j, s ≤ j → j < s + heap_needed size →
        (hget heap j).used = 0 ∧
        hget (heap_alloc HEAPADDR heap size).1 j = ⟨1, (heap_alloc HEAPADDR heap size).2⟩) ∧
      (∀ j, j < s ∨ s + heap_needed size ≤ j →
        hget (heap_alloc HEAPADDR heap size).1 j = hget heap j) ∧
      (heap_alloc HEAPADDR heap size).1.length = heap.length := by
  rcases heap_alloc_spec HEAPADDR heap size hsz with ⟨he, _⟩ | ⟨a, ha, hrun, he, _, _⟩
  · rw [he] at hok
    exact absurd rfl hok
  · refine ⟨a, ha, ?_, ?_, ?_, ?_⟩
    · rw [he]; exact congrArg _ (Nat.mul_comm _ _)
    · intro j h1 h2
      refine ⟨hrun j h1 h2, ?_⟩
      rw [he]
      exact hget_heap_claim_in _ _ _ _ _ h1 h2 (by omega)
    · intro j hj
      rw [he]
      exact hget_heap_claim_out _ _ _ _ _ hj
    · rw [he]
      exact length_heap_claim _ _ _ _

/-- C5, at arena address 0x4000 on the initial table with size 100. -/
theorem heap_alloc_claims_needed_blocks_witness :
    heap_init.length = HEAP_MAX_BLOCK ∧ 0 < 100 ∧ (heap_alloc 0x4000 heap_init 100).2 ≠ 0 ∧
    ∃ s, s + heap_needed 100 ≤ HEAP_MAX_BLOCK ∧
      (heap_alloc 0x4000 heap_init 100).2 = 0x4000 + HEAP_BLOCK_SIZE * s ∧
      (∀ j, s ≤ j → j < s + heap_needed 100 →
        (hget heap_init j).used = 0 ∧
        hget (heap_alloc 0x4000 heap_init 100).1 j = ⟨1, (heap_alloc 0x4000 heap_init 100).2⟩) ∧
      (∀ j, j < s ∨ s + heap_needed 100 ≤ j →
        hget (heap_alloc 0x4000 heap_init 100).1 j = hget heap_init j) ∧
      (heap_alloc 0x4000 heap_init 100).1.length = heap_init.length :=
  ⟨length_heap_init, by decide, by decide,
    heap_alloc_claims_needed_blocks 0x4000 heap_init 100 length_heap_init (by decide)
      (by decide)⟩

/-- C6: for every block table and every size, `heap_alloc` returns the null
address exactly when the size is 0 or the table has no `ceil(size / 64)`
consecutive free slots; whenever it returns the null address the table is
unchanged; and when every slot is in use a 1-byte request returns the null
address. The arena address `HEAPADDR` is not null. -/
theorem heap_alloc_null_iff (HEAPADDR : Nat) (heap : List HEAPBLOCK) (size : Nat)
    (hbase : 0 < HEAPADDR) :
    ((heap_alloc HEAPADDR heap size).2 = 0 ↔
      (size = 0 ∨ ¬ HasFreeRun heap (heap_needed size))) ∧
    ((heap_alloc HEAPADDR heap size).2 = 0 → (heap_alloc HEAPADDR heap size).1 = heap) ∧
    ((∀ i, i < HEAP_MAX_BLOCK → (hget heap i).used ≠ 0) →
      (heap_alloc HEAPADDR heap 1).2 = 0) := by
  have key : ∀ sz, ((heap_alloc HEAPADDR heap sz).2 = 0 ↔
      (sz = 0 ∨ ¬ HasFreeRun heap (heap_needed sz))) ∧
      ((heap_alloc HEAPADDR heap sz).2 = 0 → (heap_alloc HEAPADDR heap sz).1 = heap) := by
    intro sz
    by_cases hsz : sz = 0
    · subst hsz
      simp [heap_alloc]
    · rcases heap_alloc_spec HEAPADDR heap sz (by omega) with ⟨he, hno⟩ | ⟨a, ha, hrun, he, _, _⟩
      · rw [he]
        exact ⟨⟨fun _ => Or.inr hno, fun _ => rfl⟩, fun _ => rfl⟩
      · rw [he]
        have hne : HEAPADDR + a * HEAP_BLOCK_SIZE ≠ 0 := by omega
        refine ⟨⟨fun h => absurd h hne, fun h => ?_⟩, fun h => absurd h hne⟩
        rcases h with h | h
        · exact absurd h hsz
        · exact absurd ⟨a, ha, hrun⟩ h
  refine ⟨(key size).1, (key size).2, fun hall => ?_⟩
  apply (key 1).1.mpr
  right
  rintro ⟨s, hs, hrun⟩
  have h1 : heap_needed 1 = 1 := by decide
  rw [h1] at hs hrun
  exact hall s (by omega) (hrun s (Nat.le_refl _) (by omega))

/-- C6, at arena address 0x4000 on the initial table with size 1. -/
theorem heap_alloc_null_iff_witness :
    0 < 0x4000 ∧
    (((heap_alloc 0x4000 heap_init 1).2 = 0 ↔
      (1 = 0 ∨ ¬ HasFreeRun heap_init (heap_needed 1))) ∧
    ((heap_alloc 0x4000 heap_init 1).2 = 0 → (heap_alloc 0x4000 heap_init 1).1 = heap_init) ∧
    ((∀ i, i < HEAP_MAX_BLOCK → (hget heap_init i).used ≠ 0) →
      (heap_alloc 0x4000 heap_init 1).2 = 0)) :=
  ⟨by decide, heap_alloc_null_iff 0x4000 heap_init 1 (by decide)⟩

/-- C7: in every block table reachable from the initial table by `heap_alloc`
and `heap_free` calls, once `heap_alloc(size)` has succeeded with address `a`,
`heap_free(a)` gives back exactly the table before the allocation (so the claimed
slots are free again and no other slot has changed). On the initial table
`heap_alloc(1)` returns the arena address `X`, and after `heap_free(X)`,
`heap_alloc(HEAP_MEM_SIZE)` (8192 bytes) succeeds and returns `X` again. -/
theorem heap_free_undoes_alloc (HEAPADDR : Nat) (heap : List HEAPBLOCK) (size : Nat)
    (hbase : 0 < HEAPADDR) (hreach : HeapReachable HEAPADDR heap)
    (hok : (heap_alloc HEAPADDR heap size).2 ≠ 0) :
    heap_free (heap_alloc HEAPADDR heap size).1 (heap_alloc HEAPADDR heap size).2 = heap ∧
    (heap_alloc HEAPADDR heap_init 1).2 = HEAPADDR ∧
    (heap_alloc HEAPADDR (heap_free (heap_alloc HEAPADDR heap_init 1).1 HEAPADDR)
      HEAP_MEM_SIZE).2 = HEAPADDR ∧ HEAPADDR ≠ 0 := by
  have hwf := heap_reachable_inv HEAPADDR heap hreach
  have h1 : (heap_alloc HEAPADDR heap_init 1).2 = HEAPADDR :=
    heap_alloc_heap_init HEAPADDR 1 (by decide) (by decide)
  refine ⟨heap_free_alloc_of_inv HEAPADDR heap size hwf.1 hwf.2 hok, h1, ?_, by omega⟩
  have h2 := heap_free_alloc_of_inv HEAPADDR heap_init 1 length_heap_init
    (heap_inv_init HEAPADDR) (by rw [h1]; omega)
  rw [h1] at h2
  rw [h2]
  exact heap_alloc_heap_init HEAPADDR HEAP_MEM_SIZE (by decide) (by decide)

/-- C7, at arena address 0x4000 on the table left by `heap_alloc(200)` with size 100. -/
theorem heap_free_undoes_alloc_witness :
    0 < 0x4000 ∧ HeapReachable 0x4000 (heap_alloc 0x4000 heap_init 200).1 ∧
    (heap_alloc 0x4000 (heap_alloc 0x4000 heap_init 200).1 100).2 ≠ 0 ∧
    (heap_free (heap_alloc 0x4000 (heap_alloc 0x4000 heap_init 200).1 100).1
        (heap_alloc 0x4000 (heap_alloc 0x4000 heap_init 200).1 100).2 =
      (heap_alloc 0x4000 heap_init 200).1 ∧
    (heap_alloc 0x4000 heap_init 1).2 = 0x4000 ∧
    (heap_alloc 0x4000 (heap_free (heap_alloc 0x4000 heap_init 1).1 0x4000)
      HEAP_MEM_SIZE).2 = 0x4000 ∧ 0x4000 ≠ 0) :=
  ⟨by decide, HeapReachable.alloc _ 200 HeapReachable.init, by decide,
    heap_free_undoes_alloc 0x4000 (heap_alloc 0x4000 heap_init 200).1 100 (by decide)
      (HeapReachable.alloc _ 200 HeapReachable.init) (by decide)⟩

/-- C8, as stated: on the initial table (arena at 0x4000) the single run is all
128 slots and `heap_alloc(1)` needs one slot; the claim would make it return the
address of slot 127, but it returns the address of slot 0. -/
theorem heap_alloc_not_run_tail : ¬ ClaimsRunTail 0x4000 heap_init 1 := by
  intro h
  have hrun : MaximalRun heap_init 0 HEAP_MAX_BLOCK :=
    ⟨by decide, Nat.le_refl _, free_run_heap_init _ _, fun p hp => by omega,
      fun hb => absurd hb (Nat.lt_irrefl _)⟩
  have h1 : (heap_alloc 0x4000 heap_init 1).2 = 0x4000 := by decide
  have := (h 0 HEAP_MAX_BLOCK hrun (by decide) (by decide) ⟨0, by decide, by decide, by decide⟩).1
  rw [h1] at this
  exact absurd this (by decide)

/-- C8, amended: when a successful `heap_alloc` is served from a run (a maximal
sequence of consecutive free blocks) longer than needed, the slots claimed are
the first `needed` slots of that run, its head: the returned address is the
address of the first slot of the run, and the remaining slots of the run stay free. -/
theorem heap_alloc_claims_run_head (HEAPADDR : Nat) (heap : List HEAPBLOCK) (size : Nat)
    (hlen : heap.length = HEAP_MAX_BLOCK) (hsz : 0 < size) :
    ClaimsRunHead HEAPADDR heap size := by
  intro a b hrun hlong hok hs
  obtain ⟨ha, hb, hfree, hleft, _⟩ := hrun
  obtain ⟨s, hs1, hs2, hs3⟩ := hs
  rcases heap_alloc_spec HEAPADDR heap size hsz with ⟨he, _⟩ | ⟨c, hc, _, he, hcl, _⟩
  · rw [he] at hok
    exact absurd rfl hok
  · have hB : HEAP_BLOCK_SIZE = 64 := by decide
    have hcs : c = s := by
      rw [he, hB] at hs3
      simp only at hs3
      omega
    subst hcs
    have hca : c = a := by
      by_contra hne
      exact hcl (c - 1) (by omega) (hfree (c - 1) (by omega) (by omega))
    subst hca
    rw [he]
    refine ⟨congrArg _ (Nat.mul_comm _ _), ?_, ?_⟩
    · intro j h1 h2
      exact hget_heap_claim_in _ _ _ _ _ h1 h2 (by omega)
    · intro j h1 h2
      simp only
      rw [hget_heap_claim_out _ _ _ _ _ (Or.inr h1)]
      exact hfree j (by omega) (by omega)

/-- C8 amended, at arena address 0x4000 on the initial table with size 100. -/
theorem heap_alloc_claims_run_head_witness :
    heap_init.length = HEAP_MAX_BLOCK ∧ 0 < 100 ∧ ClaimsRunHead 0x4000 heap_init 100 :=
  ⟨length_heap_init, by decide,
    heap_alloc_claims_run_head 0x4000 heap_init 100 length_heap_init (by decide)⟩

/-- C9: starting from the initial table and performing only allocations, every
`heap_alloc(size)` with `size > 0` not larger than the free capacity (number of
free slots times the block size, itself at most 128 * 64 = 8192 bytes) returns a
non-null address, the address of a slot `s` such that the `ceil(size / 64)` slots
from `s` on were all free before the call. -/
theorem heap_alloc_only_succeeds (HEAPADDR : Nat) (heap : List HEAPBLOCK) (size : Nat)
    (hbase : 0 < HEAPADDR) (hreach : HeapAllocOnly HEAPADDR heap) (hsz : 0 < size)
    (hcap : size ≤ heap_free_count heap * HEAP_BLOCK_SIZE) :
    (heap_alloc HEAPADDR heap size).2 ≠ 0 ∧
    (∃ s, s + heap_needed size ≤ HEAP_MAX_BLOCK ∧
      (heap_alloc HEAPADDR heap size).2 = HEAPADDR + HEAP_BLOCK_SIZE * s ∧
      ∀ j, s ≤ j → j < s + heap_needed size → (hget heap j).used = 0) ∧
    heap_free_count heap * HEAP_BLOCK_SIZE ≤ HEAP_MAX_BLOCK * HEAP_BLOCK_SIZE ∧
    HEAP_MAX_BLOCK * HEAP_BLOCK_SIZE = 8192 := by
  obtain ⟨_, m, hm, hpre⟩ := heap_alloc_only_prefix HEAPADDR heap hreach
  have hcount : heap_free_count heap = HEAP_MAX_BLOCK - m := by
    unfold heap_free_count
    apply countP_range_from
    intro i _
    have := hpre i
    simp only [beq_iff_eq]
    constructor
    · intro h0
      by_contra hlt
      exact (this.mpr (by omega)) h0
    · intro hle
      by_contra hu
      have := this.mp hu
      omega
  have hB : HEAP_BLOCK_SIZE = 64 := by decide
  have hN : HEAP_MAX_BLOCK = 128 := by decide
  have hneed : m + heap_needed size ≤ HEAP_MAX_BLOCK := by
    rw [hcount, hB] at hcap
    unfold heap_needed
    rw [hB]
    omega
  have hfm : FreeRun heap m (heap_needed size) := by
    intro j h1 _
    by_contra hu
    have := (hpre j).mp hu
    omega
  refine ⟨?_, ?_, ?_, by decide⟩
  · rcases heap_alloc_spec HEAPADDR heap size hsz with ⟨_, hno⟩ | ⟨a, _, _, he, _, _⟩
    · exact absurd ⟨m, hneed, hfm⟩ hno
    · rw [he]
      simp only
      omega
  · rcases heap_alloc_spec HEAPADDR heap size hsz with ⟨_, hno⟩ | ⟨a, ha, hrun, he, _, _⟩
    · exact absurd ⟨m, hneed, hfm⟩ hno
    · refine ⟨a, ha, ?_, hrun⟩
      rw [he]
      exact congrArg _ (Nat.mul_comm _ _)
  · rw [hcount, hB, hN]
    omega

set_option maxRecDepth 100000 in
/-- C9, at arena address 0x4000 on the table left by `heap_alloc(200)`, which
has 124 free slots, with the size 7936 = 124 * 64 that takes all of them. -/
theorem heap_alloc_only_succeeds_witness :
    0 < 0x4000 ∧ HeapAllocOnly 0x4000 (heap_alloc 0x4000 heap_init 200).1 ∧ 0 < 7936 ∧
    7936 ≤ heap_free_count (heap_alloc 0x4000 heap_init 200).1 * HEAP_BLOCK_SIZE ∧
    ((heap_alloc 0x4000 (heap_alloc 0x4000 heap_init 200).1 7936).2 ≠ 0 ∧
    (∃ s, s + heap_needed 7936 ≤ HEAP_MAX_BLOCK ∧
      (heap_alloc 0x4000 (heap_alloc 0x4000 heap_init 200).1 7936).2 =
        0x4000 + HEAP_BLOCK_SIZE * s ∧
      ∀ j, s ≤ j → j < s + heap_needed 7936 →
        (hget (heap_alloc 0x4000 heap_init 200).1 j).used = 0) ∧
    heap_free_count (heap_alloc 0x4000 heap_init 200).1 * HEAP_BLOCK_SIZE ≤
      HEAP_MAX_BLOCK * HEAP_BLOCK_SIZE ∧
    HEAP_MAX_BLOCK * HEAP_BLOCK_SIZE = 8192) :=
  ⟨by decide, HeapAllocOnly.alloc _ 200 HeapAllocOnly.init, by decide, by decide,
    heap_alloc_only_succeeds 0x4000 (heap_alloc 0x4000 heap_init 200).1 7936 (by decide)
      (HeapAllocOnly.alloc _ 200 HeapAllocOnly.init) (by decide) (by decide)⟩

/-- C10: every block table reachable from the initial table by `heap_alloc` and
`heap_free` calls satisfies the owner invariant (a free slot has no owner; the
owner of an in-use slot `i` is the address of a slot `k ≤ i` such that all of
`k .. i` are in use with that owner); two in-use slots with the same owner lie
in one contiguous in-use stretch that begins at the slot located at that address
and carries that owner throughout; and the address returned by a successful
`heap_alloc` is the owner of no slot in use before the call. -/
theorem heap_reachable_owner_invariant (HEAPADDR : Nat) (heap : List HEAPBLOCK)
    (hreach : HeapReachable HEAPADDR heap) :
    HeapInv HEAPADDR heap ∧
    (∀ i j, i < HEAP_MAX_BLOCK → j < HEAP_MAX_BLOCK →
      (hget heap i).used ≠ 0 → (hget heap j).used ≠ 0 → (hget heap i).ptr = (hget heap j).ptr →
      ∃ k, k ≤ i ∧ k ≤ j ∧ (hget heap i).ptr = HEAPADDR + HEAP_BLOCK_SIZE * k ∧
        ∀ m, k ≤ m → (m ≤ i ∨ m ≤ j) →
          (hget heap m).used ≠ 0 ∧ (hget heap m).ptr = (hget heap i).ptr) ∧
    (∀ size i, (heap_alloc HEAPADDR heap size).2 ≠ 0 → i < HEAP_MAX_BLOCK →
      (hget heap i).used ≠ 0 → (hget heap i).ptr ≠ (heap_alloc HEAPADDR heap size).2) := by
  obtain ⟨_, hinv⟩ := heap_reachable_inv HEAPADDR heap hreach
  refine ⟨hinv, ?_, ?_⟩
  · intro i j hi hj hui huj hp
    obtain ⟨k, hk, hpk, hall⟩ := (hinv i hi).2 hui
    obtain ⟨k2, hk2, hpk2, hall2⟩ := (hinv j hj).2 huj
    have hB : HEAP_BLOCK_SIZE = 64 := by decide
    have hkk : k2 = k := by
      rw [← hp, hpk, hB] at hpk2
      omega
    subst hkk
    refine ⟨k2, hk, hk2, hpk, ?_⟩
    intro m h1 h2
    by_cases hmi : m ≤ i
    · exact hall m h1 hmi
    · have := hall2 m h1 (by omega)
      exact ⟨this.1, by rw [this.2, hp]⟩
  · intro size i hok hi hu
    by_cases hsz : size = 0
    · subst hsz
      exact absurd rfl hok
    rcases heap_alloc_spec HEAPADDR heap size (by omega) with ⟨he, _⟩ | ⟨a, _, hrun, he, _, _⟩
    · rw [he] at hok
      exact absurd rfl hok
    · rw [he]
      have hpos := heap_needed_pos size (by omega)
      exact heap_inv_owner_fresh HEAPADDR heap hinv a (hrun a (Nat.le_refl _) (by omega)) i hi hu

/-- C10, at arena address 0x4000 on the table left by `heap_alloc(200)`. -/
theorem heap_reachable_owner_invariant_witness :
    HeapReachable 0x4000 (heap_alloc 0x4000 heap_init 200).1 ∧
    (HeapInv 0x4000 (heap_alloc 0x4000 heap_init 200).1 ∧
    (∀ i j, i < HEAP_MAX_BLOCK → j < HEAP_MAX_BLOCK →
      (hget (heap_alloc 0x4000 heap_init 200).1 i).used ≠ 0 →
      (hget (heap_alloc 0x4000 heap_init 200).1 j).used ≠ 0 →
      (hget (heap_alloc 0x4000 heap_init 200).1 i).ptr =
        (hget (heap_alloc 0x4000 heap_init 200).1 j).ptr →
      ∃ k, k ≤ i ∧ k ≤ j ∧
        (hget (heap_alloc 0x4000 heap_init 200).1 i).ptr = 0x4000 + HEAP_BLOCK_SIZE * k ∧
        ∀ m, k ≤ m → (m ≤ i ∨ m ≤ j) →
          (hget (heap_alloc 0x4000 heap_init 200).1 m).used ≠ 0 ∧
          (hget (heap_alloc 0x4000 heap_init 200).1 m).ptr =
            (hget (heap_alloc 0x4000 heap_init 200).1 i).ptr) ∧
    (∀ size i, (heap_alloc 0x4000 (heap_alloc 0x4000 heap_init 200).1 size).2 ≠ 0 →
      i < HEAP_MAX_BLOCK →
      (hget (heap_alloc 0x4000 heap_init 200).1 i).used ≠ 0 →
      (hget (heap_alloc 0x4000 heap_init 200).1 i).ptr ≠
        (heap_alloc 0x4000 (heap_alloc 0x4000 heap_init 200).1 size).2)) :=
  ⟨HeapReachable.alloc _ 200 HeapReachable.init,
    heap_reachable_owner_invariant 0x4000 (heap_alloc 0x4000 heap_init 200).1
      (HeapReachable.alloc _ 200 HeapReachable.init)⟩

/-! ## Lemmas on `memcpy` and the region table -/

theorem getD_set_ne {α : Type} (l : List α) (j i : Nat) (v d : α) (h : i ≠ j) :
    (l.set j v).getD i d = l.getD i d := by
  simp [List.getD_eq_getElem?_getD, List.getElem?_set_ne (Ne.symm h)]

theorem getD_set_eq {α : Type} (l : List α) (j : Nat) (v d : α) (h : j < l.length) :
    (l.set j v).getD j d = v := by
  simp [List.getD_eq_getElem?_getD, h]

/-- Two lists of the same length with the same cells are equal. -/
theorem list_ext_getD {α : Type} (d : α) (l1 l2 : List α) (hl : l1.length = l2.length)
    (h : ∀ i, i < l1.length → l1.getD i d = l2.getD i d) : l1 = l2 := by
  apply List.ext_getElem hl
  intro n a b
  have := h n a
  simp only [List.getD_eq_getElem?_getD, List.getElem?_eq_getElem a,
    List.getElem?_eq_getElem b, Option.getD_some] at this
  exact this

theorem length_memcpy_loop {α : Type} (d : α) (dst src size : Nat) (rdir : Bool)
    (k i : Nat) (mem : List α) :
    (memcpy_loop d dst src size rdir k i mem).1.length = mem.length := by
  induction k generalizing i mem with
  | zero => rfl
  | succ k ih => simp [memcpy_loop, ih]

theorem length_memcpy {α : Type} (d : α) (mem : List α) (dst src size : Nat) :
    (memcpy d mem dst src size).1.length = mem.length :=
  length_memcpy_loop _ _ _ _ _ _ _ _

/-- Forward copy from the next cell: the cells `dst+i .. dst+size-1` receive the
former contents of their right neighbours. -/
theorem getD_memcpy_loop_down {α : Type} (d : α) (dst size : Nat) (k : Nat) :
    ∀ (i : Nat) (mem : List α) (j : Nat), i + k = size → dst + size < mem.length →
      (memcpy_loop d dst (dst + 1) size false k i mem).1.getD j d =
        if dst + i ≤ j ∧ j < dst + size then mem.getD (j + 1) d else mem.getD j d := by
  induction k with
  | zero =>
    intro i mem j hik _
    simp only [memcpy_loop]
    rw [if_neg (by omega)]
  | succ k ih =>
    intro i mem j hik hlen
    simp only [memcpy_loop, Bool.false_eq_true, if_false]
    rw [ih (i + 1) _ j (by omega) (by simp; omega)]
    by_cases hj : dst + i ≤ j ∧ j < dst + size
    · rw [if_pos hj]
      by_cases hji : j = dst + i
      · subst hji
        rw [if_neg (by omega), getD_set_eq _ _ _ _ (by omega)]
        congr 1
        omega
      · rw [if_pos (by omega), getD_set_ne _ _ _ _ _ (by omega)]
    · rw [if_neg hj, if_neg (by omega), getD_set_ne _ _ _ _ _ (by omega)]

/-- Backward copy to the next cell: the cells `src+1 .. src+size-i` receive the
former contents of their left neighbours. -/
theorem getD_memcpy_loop_up {α : Type} (d : α) (src size : Nat) (k : Nat) :
    ∀ (i : Nat) (mem : List α) (j : Nat), i + k = size → src + size < mem.length →
      (memcpy_loop d (src + 1) src size true k i mem).1.getD j d =
        if src + 1 ≤ j ∧ j < src + 1 + k then mem.getD (j - 1) d else mem.getD j d := by
  induction k with
  | zero =>
    intro i mem j hik _
    simp only [memcpy_loop]
    rw [if_neg (by omega)]
  | succ k ih =>
    intro i mem j hik hlen
    simp only [memcpy_loop, if_true]
    rw [ih (i + 1) _ j (by omega) (by simp; omega)]
    have e1 : src + 1 + (size - 1 - i) = src + 1 + k := by omega
    have e2 : src + (size - 1 - i) = src + k := by omega
    rw [e1, e2]
    by_cases hj : src + 1 ≤ j ∧ j < src + 1 + (k + 1)
    · rw [if_pos hj]
      by_cases hji : j = src + 1 + k
      · subst hji
        rw [if_neg (by omega), getD_set_eq _ _ _ _ (by omega)]
        congr 1
        omega
      · rw [if_pos (by omega), getD_set_ne _ _ _ _ _ (by omega)]
    · rw [if_neg hj, if_neg (by omega), getD_set_ne _ _ _ _ _ (by omega)]

theorem getD_take_append_drop {α : Type} (d z : α) (t : List α) (i j : Nat)
    (hi : i < t.length) :
    (t.take i ++ (t.drop (i + 1) ++ [z])).getD j d =
      if j < i then t.getD j d
      else if j + 1 < t.length then t.getD (j + 1) d
      else if j + 1 = t.length then z else d := by
  rw [List.getD_eq_getElem?_getD]
  by_cases h1 : j < i
  · rw [if_pos h1, List.getElem?_append_left (by simp; omega), List.getElem?_take, if_pos h1,
      List.getD_eq_getElem?_getD]
  · rw [if_neg h1, List.getElem?_append_right (by simp; omega)]
    have hl : (List.take i t).length = i := by simp; omega
    rw [hl]
    by_cases h2 : j + 1 < t.length
    · rw [if_pos h2, List.getElem?_append_left (by simp; omega), List.getElem?_drop,
        List.getD_eq_getElem?_getD]
      congr 2
      omega
    · rw [if_neg h2, List.getElem?_append_right (by simp; omega)]
      by_cases h3 : j + 1 = t.length
      · rw [if_pos h3]
        have : j - i - (List.drop (i + 1) t).length = 0 := by simp; omega
        rw [this]
        rfl
      · rw [if_neg h3]
        have : j - i - (List.drop (i + 1) t).length = (j - t.length) + 1 := by simp; omega
        rw [this]
        rfl

/-- Removal of descriptor `i` in `lmem_free`: the entries after `i` move one slot
toward the head and the last slot is zeroed. -/
theorem lmem_remove_eq (t : List LMEMBLOCK) (i : Nat) (hlen : t.length = LMEM_MAX_BLOCK)
    (hi : i < LMEM_MAX_BLOCK) :
    (memcpy ⟨0, 0⟩ (t.set i ⟨0, 0⟩) i (i + 1) (LMEM_MAX_BLOCK - i - 1)).1.set
        (LMEM_MAX_BLOCK - 1) ⟨0, 0⟩ =
      t.take i ++ (t.drop (i + 1) ++ [⟨0, 0⟩]) := by
  have hN : LMEM_MAX_BLOCK = 64 := rfl
  apply list_ext_getD ⟨0, 0⟩
  · simp [length_memcpy]
    omega
  · intro j hj
    rw [List.length_set, length_memcpy, List.length_set] at hj
    rw [getD_take_append_drop _ _ _ _ _ (by omega)]
    by_cases hj63 : j = LMEM_MAX_BLOCK - 1
    · subst hj63
      rw [getD_set_eq _ _ _ _ (by rw [length_memcpy, List.length_set]; omega),
        if_neg (by omega), if_neg (by omega), if_pos (by omega)]
    · rw [getD_set_ne _ _ _ _ _ hj63]
      unfold memcpy
      rw [if_pos (by omega),
        getD_memcpy_loop_down _ _ _ _ 0 _ j (by omega) (by rw [List.length_set]; omega)]
      by_cases h1 : j < i
      · rw [if_neg (by omega), if_pos h1, getD_set_ne _ _ _ _ _ (by omega)]
      · rw [if_pos (by omega), if_neg h1, if_pos (by omega), getD_set_ne _ _ _ _ _ (by omega)]

theorem lmem_free_step_match (ptr : Nat) (hp : ptr ≠ 0) (x : LMEMBLOCK)
    (rest : List LMEMBLOCK) (hx : x.start = ptr) :
    (rest ++ [(⟨0, 0⟩ : LMEMBLOCK)]).filter (fun e => e.start != ptr) ++
        List.replicate ((rest ++ [(⟨0, 0⟩ : LMEMBLOCK)]).countP (fun e => e.start == ptr))
          ⟨0, 0⟩ =
      (x :: rest).filter (fun e => e.start != ptr) ++
        List.replicate ((x :: rest).countP (fun e => e.start == ptr)) ⟨0, 0⟩ := by
  have hz : ¬ (0 = ptr) := fun h => hp h.symm
  simp [List.filter_cons, List.countP_cons, List.filter_append, List.countP_append, hx, hz,
    List.replicate_succ]

theorem lmem_free_step_skip (ptr : Nat) (x : LMEMBLOCK) (pre rest : List LMEMBLOCK)
    (hx : x.start ≠ ptr) :
    (pre ++ [x]) ++ (rest.filter (fun e => e.start != ptr) ++
        List.replicate (rest.countP (fun e => e.start == ptr)) ⟨0, 0⟩) =
      pre ++ ((x :: rest).filter (fun e => e.start != ptr) ++
        List.replicate ((x :: rest).countP (fun e => e.start == ptr)) ⟨0, 0⟩) := by
  simp [List.filter_cons, List.countP_cons, hx]

theorem lmem_countP_snoc_zero (ptr : Nat) (hp : ptr ≠ 0) (rest : List LMEMBLOCK) :
    (rest ++ [(⟨0, 0⟩ : LMEMBLOCK)]).countP (fun e => e.start == ptr) =
      rest.countP (fun e => e.start == ptr) := by
  have hz : ¬ (0 = ptr) := fun h => hp h.symm
  simp [List.countP_append, List.countP_cons, hz]

/-- Result of the loop of `lmem_free` entered at index `i`, when the fuel covers
the remaining indices and the remaining matches. -/
theorem lmem_free_loop_spec (ptr : Nat) (hp : ptr ≠ 0) (fuel : Nat) :
    ∀ (i : Nat) (t : List LMEMBLOCK), t.length = LMEM_MAX_BLOCK → i ≤ LMEM_MAX_BLOCK →
      (LMEM_MAX_BLOCK - i) + (t.drop i).countP (fun e => e.start == ptr) ≤ fuel →
      lmem_free_loop ptr fuel i t =
        some (t.take i ++ ((t.drop i).filter (fun e => e.start != ptr) ++
          List.replicate ((t.drop i).countP (fun e => e.start == ptr)) ⟨0, 0⟩)) := by
  induction fuel with
  | zero =>
    intro i t hlen hi hf
    have hi64 : i = LMEM_MAX_BLOCK := by omega
    subst hi64
    simp only [lmem_free_loop, Nat.lt_irrefl, if_false]
    rw [List.drop_of_length_le (by omega), List.take_of_length_le (by omega)]
    simp
  | succ fuel ih =>
    intro i t hlen hi hf
    simp only [lmem_free_loop]
    by_cases hlt : i < LMEM_MAX_BLOCK
    · rw [if_pos hlt]
      have hdrop : t.drop i = t[i] :: t.drop (i + 1) := List.drop_eq_getElem_cons (by omega)
      have hget : lget t i = t[i] := by
        unfold lget
        exact List.getD_eq_getElem _ _ (by omega)
      have htake : t.take (i + 1) = t.take i ++ [t[i]] := by
        rw [← List.take_concat_get t i (by omega), List.concat_eq_append]
      rw [hget]
      rw [hdrop] at hf ⊢
      generalize t[i] = x at hf htake ⊢
      by_cases hm : x.start = ptr
      · rw [if_pos hm, lmem_remove_eq t i hlen hlt]
        have hl : (List.take i t).length = i := by simp; omega
        have hcnt : (x :: t.drop (i + 1)).countP (fun e => e.start == ptr) =
            (t.drop (i + 1)).countP (fun e => e.start == ptr) + 1 := by
          simp [List.countP_cons, hm]
        rw [ih i _ (by simp; omega) hi (by
          rw [List.drop_left' hl, lmem_countP_snoc_zero ptr hp]
          rw [hcnt] at hf
          omega)]
        rw [List.take_left' hl, List.drop_left' hl, lmem_free_step_match ptr hp x _ hm]
      · rw [if_neg hm]
        have hcnt : (x :: t.drop (i + 1)).countP (fun e => e.start == ptr) =
            (t.drop (i + 1)).countP (fun e => e.start == ptr) := by
          simp [List.countP_cons, hm]
        rw [ih (i + 1) t hlen (by omega) (by rw [hcnt] at hf; omega)]
        rw [htake]
        exact congrArg some (lmem_free_step_skip ptr x _ _ hm)
    · have hi64 : i = LMEM_MAX_BLOCK := by omega
      subst hi64
      rw [if_neg hlt, List.drop_of_length_le (by omega), List.take_of_length_le (by omega)]
      simp

/-! ## Theorems on region free and the refusal of region allocate -/

/-- C11: for every region table of `LMEM_MAX_BLOCK` descriptors (in particular
those whose live entries occupy a prefix) and every address `a`: if `a` is not
zero, `lmem_free(a)` ends and yields the descriptors whose start is not `a`, in
their original order and unaltered, moved toward the head, followed by one zeroed
slot for every descriptor removed; if `a` is zero or no descriptor has start `a`,
the table is unchanged. -/
theorem lmem_free_removes (lmem : List LMEMBLOCK) (a : Nat)
    (hlen : lmem.length = LMEM_MAX_BLOCK) :
    (a ≠ 0 → lmem_free lmem a =
      some (lmem.filter (fun e => e.start != a) ++
        List.replicate (lmem.countP (fun e => e.start == a)) ⟨0, 0⟩)) ∧
    ((a = 0 ∨ ∀ i, i < LMEM_MAX_BLOCK → (lget lmem i).start ≠ a) →
      lmem_free lmem a = some lmem) := by
  have hN : LMEM_MAX_BLOCK = 64 := rfl
  have main : a ≠ 0 → lmem_free lmem a =
      some (lmem.filter (fun e => e.start != a) ++
        List.replicate (lmem.countP (fun e => e.start == a)) ⟨0, 0⟩) := by
    intro ha
    unfold lmem_free
    rw [if_pos ha]
    have hc : lmem.countP (fun e => e.start == a) ≤ lmem.length := List.countP_le_length _
    have := lmem_free_loop_spec a ha (2 * LMEM_MAX_BLOCK) 0 lmem hlen (by omega)
      (by rw [List.drop_zero]; omega)
    rw [this]
    simp
  refine ⟨main, fun h => ?_⟩
  by_cases ha : a = 0
  · unfold lmem_free
    rw [if_neg (by simpa using ha)]
  · have hnone : ∀ e ∈ lmem, e.start ≠ a := by
      intro e he
      obtain ⟨i, hi, hie⟩ := List.getElem_of_mem he
      have h1 := (h.resolve_left ha) i (by omega)
      have : lget lmem i = e := by
        unfold lget
        rw [List.getD_eq_getElem _ _ hi, hie]
      rw [this] at h1
      exact h1
    rw [main ha]
    have h1 : lmem.filter (fun e => e.start != a) = lmem := by
      rw [List.filter_eq_self]
      intro e he
      simpa using hnone e he
    have h2 : lmem.countP (fun e => e.start == a) = 0 := by
      rw [List.countP_eq_zero]
      intro e he
      simpa using hnone e he
    rw [h1, h2]
    simp

set_option maxRecDepth 100000 in
/-- C11, on the table left by `lmem_alloc(32)`, `lmem_alloc(16)` with address 0x10000. -/
theorem lmem_free_removes_witness :
    lmem_two_state.length = LMEM_MAX_BLOCK ∧
    ((0x10000 ≠ 0 → lmem_free lmem_two_state 0x10000 =
      some (lmem_two_state.filter (fun e => e.start != 0x10000) ++
        List.replicate (lmem_two_state.countP (fun e => e.start == 0x10000)) ⟨0, 0⟩)) ∧
    ((0x10000 = 0 ∨ ∀ i, i < LMEM_MAX_BLOCK → (lget lmem_two_state i).start ≠ 0x10000) →
      lmem_free lmem_two_state 0x10000 = some lmem_two_state)) :=
  ⟨by decide, lmem_free_removes lmem_two_state 0x10000 (by decide)⟩

/-- C12: on the empty table `lmem_alloc(10)` returns `S0 = LMEM_START` but records
the interval `[S0, S0+20)`; the following `lmem_alloc(5)` returns `S0+20` and
records `[S0+20, S0+30)`; after `lmem_free(S0)` the table has exactly one entry,
at index 0, and its start is `S0+20`, not `S0+16`. -/
theorem lmem_scenario_b_sizes :
    (lmem_alloc lmem_init 10).2 = LMEM_START ∧
    lget (lmem_alloc lmem_init 10).1 0 = ⟨LMEM_START, 20⟩ ∧
    (lmem_alloc (lmem_alloc lmem_init 10).1 5).2 = LMEM_START + 20 ∧
    lget (lmem_alloc (lmem_alloc lmem_init 10).1 5).1 1 = ⟨LMEM_START + 20, 10⟩ ∧
    lmem_free (lmem_alloc (lmem_alloc lmem_init 10).1 5).1 LMEM_START =
      some (lmem_init.set 0 ⟨LMEM_START + 20, 10⟩) ∧
    lmem_entries (lmem_init.set 0 ⟨LMEM_START + 20, 10⟩) = [⟨LMEM_START + 20, 10⟩] ∧
    LMEM_START + 20 ≠ LMEM_START + 16 := by
  decide

/-- The guard of `lmem_alloc`: for every region table, `lmem_alloc(size)` returns 0
and leaves the table unchanged whenever `size` is 0 or the size recorded in the
last slot, index `LMEM_MAX_BLOCK - 1`, is not 0; and every `lmem_alloc` call that
returns 0 leaves the table unchanged. -/
theorem lmem_alloc_refusal (lmem : List LMEMBLOCK) (size : Nat) :
    ((size = 0 ∨ (lget lmem (LMEM_MAX_BLOCK - 1)).size ≠ 0) →
      lmem_alloc lmem size = (lmem, 0)) ∧
    ((lmem_alloc lmem size).2 = 0 → (lmem_alloc lmem size).1 = lmem) ∧
    LMEM_MAX_BLOCK - 1 = 63 := by
  refine ⟨fun h => ?_, fun h => ?_, rfl⟩
  · unfold lmem_alloc
    rw [if_pos h]
  · unfold lmem_alloc at h ⊢
    by_cases h1 : size = 0 ∨ (lget lmem (LMEM_MAX_BLOCK - 1)).size ≠ 0
    · rw [if_pos h1]
    · rw [if_neg h1] at h ⊢
      simp only at h ⊢
      by_cases h2 : (lmem_alloc_loop lmem (lmem_adjust size) LMEM_MAX_BLOCK 0 0).2 ≠ 0
      · rw [if_pos h2] at h
        exact absurd h h2
      · rw [if_neg h2]

/-! ## Lemmas on region allocate -/

/-- Insertion of descriptor `e` at index `p` in `lmem_alloc`: the entries from `p`
on move one slot toward the tail. -/
theorem lget_lmem_insert (t : List LMEMBLOCK) (p : Nat) (e : LMEMBLOCK)
    (hlen : t.length = LMEM_MAX_BLOCK) (hp : p < LMEM_MAX_BLOCK) (j : Nat)
    (hj : j < LMEM_MAX_BLOCK) :
    lget ((memcpy ⟨0, 0⟩ t (p + 1) p (LMEM_MAX_BLOCK - p - 1)).1.set p e) j =
      if j < p then lget t j else if j = p then e else lget t (j - 1) := by
  have hN : LMEM_MAX_BLOCK = 64 := rfl
  unfold lget
  by_cases hjp : j = p
  · subst hjp
    rw [getD_set_eq _ _ _ _ (by rw [length_memcpy]; omega), if_neg (by omega), if_pos rfl]
  · rw [getD_set_ne _ _ _ _ _ hjp]
    unfold memcpy
    rw [if_neg (by omega), getD_memcpy_loop_up _ _ _ _ 0 _ j (by omega) (by omega)]
    by_cases h1 : j < p
    · rw [if_neg (by omega), if_pos h1]
    · rw [if_pos (by omega), if_neg h1, if_neg hjp]

theorem length_lmem_alloc (t : List LMEMBLOCK) (size : Nat) :
    (lmem_alloc t size).1.length = t.length := by
  unfold lmem_alloc
  split
  · rfl
  · simp only
    split
    · simp [length_memcpy]
    · rfl

/-- The search loop of `lmem_alloc` walks over live entries only: when it leaves
with a non-zero start, the index is inside the table and every entry below it is live. -/
theorem lmem_alloc_loop_index (t : List LMEMBLOCK) (size : Nat) (k : Nat) :
    ∀ (i start : Nat), i + k = LMEM_MAX_BLOCK → 0 < k →
      (∀ j, j < i → (lget t j).start ≠ 0) →
      (lmem_alloc_loop t size k i start).2 ≠ 0 →
      (lmem_alloc_loop t size k i start).1 < LMEM_MAX_BLOCK ∧
      ∀ j, j < (lmem_alloc_loop t size k i start).1 → (lget t j).start ≠ 0 := by
  have hN : LMEM_MAX_BLOCK = 64 := rfl
  induction k with
  | zero => intro i start _ h; omega
  | succ k ih =>
    intro i start hik _ hlive
    simp only [lmem_alloc_loop]
    by_cases h1 : (lget t i).start ≠ 0
    · rw [if_pos h1]
      by_cases h2 : i = LMEM_MAX_BLOCK - 1
      · rw [if_pos h2]
        intro h
        exact absurd rfl h
      · rw [if_neg h2]
        have hlive2 : ∀ j, j < i + 1 → (lget t j).start ≠ 0 := by
          intro j hj
          by_cases hji : j = i
          · subst hji; exact h1
          · exact hlive j (by omega)
        split
        · intro _
          exact ⟨by omega, hlive2⟩
        · exact ih (i + 1) _ (by omega) (by omega) hlive2
    · rw [if_neg h1]
      intro _
      exact ⟨by omega, hlive⟩

theorem lmem_prefix_init : LmemPrefix lmem_init := by
  refine ⟨0, by omega, fun i hi => by omega, fun i _ _ => ?_⟩
  unfold lget lmem_init
  rw [List.getD_eq_getElem?_getD, List.getElem?_replicate]
  split <;> rfl

/-- The function `lmem_alloc` keeps the gap-free prefix property. -/
theorem lmem_prefix_alloc (t : List LMEMBLOCK) (size : Nat)
    (hlen : t.length = LMEM_MAX_BLOCK) (hpre : LmemPrefix t) :
    LmemPrefix (lmem_alloc t size).1 := by
  have hN : LMEM_MAX_BLOCK = 64 := rfl
  unfold lmem_alloc
  by_cases h1 : size = 0 ∨ (lget t (LMEM_MAX_BLOCK - 1)).size ≠ 0
  · rw [if_pos h1]; exact hpre
  · rw [if_neg h1]
    simp only
    by_cases h2 : (lmem_alloc_loop t (lmem_adjust size) LMEM_MAX_BLOCK 0 0).2 ≠ 0
    · rw [if_pos h2]
      obtain ⟨hp, hlive⟩ := lmem_alloc_loop_index t (lmem_adjust size) LMEM_MAX_BLOCK 0 0
        (by omega) (by omega) (fun j hj => by omega) h2
      generalize (lmem_alloc_loop t (lmem_adjust size) LMEM_MAX_BLOCK 0 0).1 = p at hp hlive
      generalize (lmem_alloc_loop t (lmem_adjust size) LMEM_MAX_BLOCK 0 0).2 = st at h2
      obtain ⟨k, hk, hkl, hkz⟩ := hpre
      have hpk : p ≤ k := by
        by_contra hc
        have h3 := hlive k (by omega)
        rw [hkz k (Nat.le_refl _) (by omega)] at h3
        exact h3 rfl
      refine ⟨min (k + 1) LMEM_MAX_BLOCK, Nat.min_le_right _ _, ?_, ?_⟩
      · intro i hi
        have hi64 : i < LMEM_MAX_BLOCK := Nat.lt_of_lt_of_le hi (Nat.min_le_right _ _)
        have hik : i < k + 1 := Nat.lt_of_lt_of_le hi (Nat.min_le_left _ _)
        rw [lget_lmem_insert t p _ hlen hp i hi64]
        by_cases c1 : i < p
        · rw [if_pos c1]; exact hlive i c1
        · rw [if_neg c1]
          by_cases c2 : i = p
          · rw [if_pos c2]; exact h2
          · rw [if_neg c2]; exact hkl (i - 1) (by omega)
      · intro i hi hi64
        have hik : k + 1 ≤ i := by
          rcases Nat.le_total (k + 1) LMEM_MAX_BLOCK with h | h
          · rw [Nat.min_eq_left h] at hi; exact hi
          · rw [Nat.min_eq_right h] at hi; omega
        rw [lget_lmem_insert t p _ hlen hp i hi64, if_neg (by omega), if_neg (by omega)]
        exact hkz (i - 1) (by omega) (by omega)
    · rw [if_neg h2]; exact hpre

/-- A property of region tables kept by every removal is kept by the loop of `lmem_free`. -/
theorem lmem_free_loop_preserves (Q : List LMEMBLOCK → Prop) (ptr : Nat)
    (hstep : ∀ (t : List LMEMBLOCK) (i : Nat), t.length = LMEM_MAX_BLOCK → i < LMEM_MAX_BLOCK →
      Q t → Q (t.take i ++ (t.drop (i + 1) ++ [⟨0, 0⟩]))) (fuel : Nat) :
    ∀ (i : Nat) (t t1 : List LMEMBLOCK), t.length = LMEM_MAX_BLOCK → Q t →
      lmem_free_loop ptr fuel i t = some t1 → Q t1 ∧ t1.length = LMEM_MAX_BLOCK := by
  have hN : LMEM_MAX_BLOCK = 64 := rfl
  induction fuel with
  | zero =>
    intro i t t1 hlen hq h
    simp only [lmem_free_loop] at h
    split at h
    · exact absurd h (by simp)
    · cases h
      exact ⟨hq, hlen⟩
  | succ fuel ih =>
    intro i t t1 hlen hq h
    simp only [lmem_free_loop] at h
    by_cases hlt : i < LMEM_MAX_BLOCK
    · rw [if_pos hlt] at h
      by_cases hm : (lget t i).start = ptr
      · rw [if_pos hm, lmem_remove_eq t i hlen hlt] at h
        exact ih i _ t1 (by simp; omega) (hstep t i hlen hlt hq) h
      · rw [if_neg hm] at h
        exact ih (i + 1) t t1 hlen hq h
    · rw [if_neg hlt] at h
      cases h
      exact ⟨hq, hlen⟩

/-- A removal keeps the gap-free prefix property. -/
theorem lmem_prefix_remove (t : List LMEMBLOCK) (i : Nat) (hlen : t.length = LMEM_MAX_BLOCK)
    (hi : i < LMEM_MAX_BLOCK) (hpre : LmemPrefix t) :
    LmemPrefix (t.take i ++ (t.drop (i + 1) ++ [⟨0, 0⟩])) := by
  have hN : LMEM_MAX_BLOCK = 64 := rfl
  obtain ⟨k, hk, hkl, hkz⟩ := hpre
  have hget : ∀ j, lget (t.take i ++ (t.drop (i + 1) ++ [⟨0, 0⟩])) j =
      if j < i then lget t j else if j + 1 < LMEM_MAX_BLOCK then lget t (j + 1) else ⟨0, 0⟩ := by
    intro j
    unfold lget
    rw [getD_take_append_drop _ _ _ _ _ (by omega), hlen]
    by_cases h1 : j < i
    · rw [if_pos h1, if_pos h1]
    · rw [if_neg h1, if_neg h1]
      by_cases h2 : j + 1 < LMEM_MAX_BLOCK
      · rw [if_pos h2, if_pos h2]
      · rw [if_neg h2, if_neg h2]
        split <;> rfl
  refine ⟨if i < k then k - 1 else k, by split <;> omega, ?_, ?_⟩
  · intro j hj
    rw [hget]
    by_cases h1 : j < i
    · rw [if_pos h1]
      exact hkl j (by split at hj <;> omega)
    · rw [if_neg h1]
      have hik : i < k := by
        by_contra hc
        rw [if_neg hc] at hj
        omega
      rw [if_pos hik] at hj
      rw [if_pos (by omega)]
      exact hkl (j + 1) (by omega)
  · intro j hj hj64
    rw [hget]
    by_cases h1 : j < i
    · rw [if_pos h1]
      exact hkz j (by split at hj <;> omega) hj64
    · rw [if_neg h1]
      by_cases h2 : j + 1 < LMEM_MAX_BLOCK
      · rw [if_pos h2]
        exact hkz (j + 1) (by split at hj <;> omega) h2
      · rw [if_neg h2]

/-- Every reachable region table has `LMEM_MAX_BLOCK` descriptors and the gap-free
prefix property. -/
theorem lmem_reachable_prefix (t : List LMEMBLOCK) (h : LmemReachable t) :
    t.length = LMEM_MAX_BLOCK ∧ LmemPrefix t := by
  induction h with
  | init => exact ⟨by simp [lmem_init], lmem_prefix_init⟩
  | alloc lmem size _ _ ih =>
    exact ⟨by rw [length_lmem_alloc]; exact ih.1, lmem_prefix_alloc lmem size ih.1 ih.2⟩
  | free lmem lmem1 ptr _ _ hfree ih =>
    unfold lmem_free at hfree
    by_cases hp : ptr ≠ 0
    · rw [if_pos hp] at hfree
      have := lmem_free_loop_preserves LmemPrefix ptr lmem_prefix_remove _ 0 lmem lmem1
        ih.1 ih.2 hfree
      exact ⟨this.2, this.1⟩
    · rw [if_neg hp] at hfree
      cases hfree
      exact ih

theorem length_lmem_fill (k : Nat) (hk : k ≤ LMEM_MAX_BLOCK) :
    (lmem_fill k).length = LMEM_MAX_BLOCK := by
  simp [lmem_fill]
  omega

theorem lget_lmem_fill (k i : Nat) :
    lget (lmem_fill k) i = if i < k then ⟨LMEM_START + 16 * i, 16⟩ else ⟨0, 0⟩ := by
  unfold lget lmem_fill
  rw [List.getD_eq_getElem?_getD]
  by_cases h : i < k
  · rw [if_pos h, List.getElem?_append_left (by simp; omega)]
    simp [List.getElem?_map, List.getElem?_range h]
  · rw [if_neg h, List.getElem?_append_right (by simp; omega), List.getElem?_replicate]
    split <;> rfl

/-- One iteration of the search loop at a live entry that is followed by a free
slot or by a gap wider than `size`: the loop leaves with the next index. -/
theorem lmem_alloc_loop_found (t : List LMEMBLOCK) (size k i st : Nat)
    (h1 : (lget t i).start ≠ 0) (h2 : i ≠ LMEM_MAX_BLOCK - 1)
    (h3 : (lget t (i + 1)).start = 0 ∨
      (lget t (i + 1)).start > (((lget t i).start + (lget t i).size) % U32 + size) % U32) :
    lmem_alloc_loop t size (k + 1) i st =
      (i + 1, ((lget t i).start + (lget t i).size) % U32) := by
  simp only [lmem_alloc_loop]
  rw [if_pos h1, if_neg h2, if_pos h3]

/-- One iteration of the search loop at a live entry whose successor is live and
leaves no gap wider than `size`: the loop goes on with the next index. -/
theorem lmem_alloc_loop_next (t : List LMEMBLOCK) (size k i st : Nat)
    (h1 : (lget t i).start ≠ 0) (h2 : i ≠ LMEM_MAX_BLOCK - 1)
    (h3 : ¬ ((lget t (i + 1)).start = 0 ∨
      (lget t (i + 1)).start > (((lget t i).start + (lget t i).size) % U32 + size) % U32)) :
    lmem_alloc_loop t size (k + 1) i st =
      lmem_alloc_loop t size k (i + 1) (((lget t i).start + (lget t i).size) % U32) := by
  simp only [lmem_alloc_loop]
  rw [if_pos h1, if_neg h2, if_neg h3]

/-- One iteration of the search loop at a free slot: the loop leaves with the
start it has, or with `LMEM_START` if it has none, unless the ceiling is too close. -/
theorem lmem_alloc_loop_free (t : List LMEMBLOCK) (size k i st : Nat)
    (h1 : (lget t i).start = 0) :
    lmem_alloc_loop t size (k + 1) i st =
      (i, if (LMEM_LIMIT + U32 - (if st = 0 then LMEM_START else st)) % U32 < size then 0
          else (if st = 0 then LMEM_START else st)) := by
  simp only [lmem_alloc_loop]
  rw [if_neg (by simpa using h1)]

/-- On the table `lmem_fill k` the search loop started at a live index `i` walks
to the end of the live prefix and proposes the end of the last entry. -/
theorem lmem_alloc_loop_fill (k : Nat) (hk1 : 1 ≤ k) (hk : k < LMEM_MAX_BLOCK) (d : Nat) :
    ∀ (i st : Nat), i + d + 1 = k →
      lmem_alloc_loop (lmem_fill k) 16 (LMEM_MAX_BLOCK - i) i st = (k, LMEM_START + 16 * k) := by
  have hN : LMEM_MAX_BLOCK = 64 := rfl
  have hS : LMEM_START = 65536 := rfl
  have hU : U32 = 4294967296 := rfl
  induction d with
  | zero =>
    intro i st hi
    have hfuel : LMEM_MAX_BLOCK - i = (LMEM_MAX_BLOCK - i - 1) + 1 := by omega
    have e1 : lget (lmem_fill k) i = ⟨LMEM_START + 16 * i, 16⟩ := by
      rw [lget_lmem_fill, if_pos (show i < k by omega)]
    have e2 : lget (lmem_fill k) (i + 1) = ⟨0, 0⟩ := by
      rw [lget_lmem_fill, if_neg (show ¬ i + 1 < k by omega)]
    rw [hfuel, lmem_alloc_loop_found _ _ _ _ _ (by rw [e1]; simp only; omega) (by omega)
      (by rw [e2]; exact Or.inl rfl), e1]
    simp only [hS, hU]
    have : i + 1 = k := by omega
    subst this
    congr 1
    omega
  | succ d ih =>
    intro i st hi
    have hfuel : LMEM_MAX_BLOCK - i = (LMEM_MAX_BLOCK - (i + 1)) + 1 := by omega
    have e1 : lget (lmem_fill k) i = ⟨LMEM_START + 16 * i, 16⟩ := by
      rw [lget_lmem_fill, if_pos (show i < k by omega)]
    have e2 : lget (lmem_fill k) (i + 1) = ⟨LMEM_START + 16 * (i + 1), 16⟩ := by
      rw [lget_lmem_fill, if_pos (show i + 1 < k by omega)]
    rw [hfuel, lmem_alloc_loop_next _ _ _ _ _ (by rw [e1]; simp only; omega) (by omega)
      (by rw [e1, e2]; simp only [hS, hU]; omega)]
    exact ih (i + 1) _ (by omega)

/-- On the table `lmem_fill k`, `k < LMEM_MAX_BLOCK`, `lmem_alloc(16)` appends the
descriptor `{LMEM_START + 16 k, 16}` and returns its start. -/
theorem lmem_alloc_fill (k : Nat) (hk : k < LMEM_MAX_BLOCK) :
    lmem_alloc (lmem_fill k) 16 = (lmem_fill (k + 1), LMEM_START + 16 * k) := by
  have hN : LMEM_MAX_BLOCK = 64 := rfl
  have hS : LMEM_START = 65536 := rfl
  have hloop : lmem_alloc_loop (lmem_fill k) 16 LMEM_MAX_BLOCK 0 0 =
      (k, LMEM_START + 16 * k) := by
    by_cases hk0 : k = 0
    · subst hk0
      have hfuel : LMEM_MAX_BLOCK = (LMEM_MAX_BLOCK - 1) + 1 := rfl
      have e1 : lget (lmem_fill 0) 0 = ⟨0, 0⟩ := by
        rw [lget_lmem_fill, if_neg (by omega)]
      rw [hfuel, lmem_alloc_loop_free _ _ _ _ _ (by rw [e1])]
      decide
    · exact lmem_alloc_loop_fill k (by omega) hk (k - 1) 0 0 (by omega)
  have hadj : lmem_adjust 16 = 16 := by decide
  have e63 : lget (lmem_fill k) (LMEM_MAX_BLOCK - 1) = ⟨0, 0⟩ := by
    rw [lget_lmem_fill, if_neg (show ¬ LMEM_MAX_BLOCK - 1 < k by omega)]
  have hcond : ¬ (16 = 0 ∨ (lget (lmem_fill k) (LMEM_MAX_BLOCK - 1)).size ≠ 0) := by
    rw [e63]
    simp
  unfold lmem_alloc
  rw [if_neg hcond]
  simp only [hadj, hloop]
  rw [if_pos (show LMEM_START + 16 * k ≠ 0 by omega)]
  congr 1
  apply list_ext_getD ⟨0, 0⟩
  · rw [List.length_set, length_memcpy, length_lmem_fill k (by omega),
      length_lmem_fill (k + 1) (by omega)]
  · intro j hj
    rw [List.length_set, length_memcpy, length_lmem_fill k (by omega)] at hj
    have h1 := lget_lmem_insert (lmem_fill k) k ⟨LMEM_START + 16 * k, 16⟩
      (length_lmem_fill k (by omega)) hk j hj
    have h2 := lget_lmem_fill (k + 1) j
    have h3 := lget_lmem_fill k j
    have h4 := lget_lmem_fill k (j - 1)
    unfold lget at h1 h2 h3 h4
    rw [h1, h2, h3, h4]
    by_cases c1 : j < k
    · rw [if_pos c1, if_pos c1, if_pos (show j < k + 1 by omega)]
    · rw [if_neg c1]
      by_cases c2 : j = k
      · subst c2
        rw [if_pos rfl, if_pos (show j < j + 1 by omega)]
      · rw [if_neg c2, if_neg (show ¬ j < k + 1 by omega), if_neg (show ¬ j - 1 < k by omega)]

theorem lmem_alloc_many_fill (n : Nat) :
    ∀ k, k + n ≤ LMEM_MAX_BLOCK →
      lmem_alloc_many 16 n (lmem_fill k) =
        (lmem_fill (k + n), (List.range n).map (fun j => LMEM_START + 16 * (k + j))) := by
  induction n with
  | zero => intro k _; rfl
  | succ n ih =>
    intro k hk
    simp only [lmem_alloc_many]
    rw [lmem_alloc_fill k (by omega)]
    simp only
    rw [ih (k + 1) (by omega), List.range_succ_eq_map]
    simp only [List.map_cons, List.map_map]
    congr 1
    · congr 1
      omega
    · congr 1
      apply List.map_congr_left
      intro j _
      simp only [Function.comp]
      omega

theorem lmem_init_eq_fill : lmem_init = lmem_fill 0 := by
  simp [lmem_init, lmem_fill]

/-! ## Theorems on full occupancy, the prefix invariant and heap free -/

/-- C14: starting from the empty table, `LMEM_MAX_BLOCK` = 64 successive
`lmem_alloc(16)` calls return the 64 distinct non-zero addresses
`LMEM_START + 16 j`, `j < 64`, and leave the 64 live descriptors
`{LMEM_START + 16 j, 16}` in the table; the 65th `lmem_alloc(16)` returns 0 and
leaves the table unchanged. -/
theorem lmem_alloc_full_boundary :
    (lmem_alloc_many 16 LMEM_MAX_BLOCK lmem_init).2 =
      (List.range LMEM_MAX_BLOCK).map (fun j => LMEM_START + 16 * j) ∧
    (lmem_alloc_many 16 LMEM_MAX_BLOCK lmem_init).2.length = 64 ∧
    (lmem_alloc_many 16 LMEM_MAX_BLOCK lmem_init).2.Nodup ∧
    (∀ a, a ∈ (lmem_alloc_many 16 LMEM_MAX_BLOCK lmem_init).2 → a ≠ 0) ∧
    (∀ i, i < LMEM_MAX_BLOCK →
      lget (lmem_alloc_many 16 LMEM_MAX_BLOCK lmem_init).1 i = ⟨LMEM_START + 16 * i, 16⟩ ∧
      (lget (lmem_alloc_many 16 LMEM_MAX_BLOCK lmem_init).1 i).start ≠ 0) ∧
    lmem_alloc (lmem_alloc_many 16 LMEM_MAX_BLOCK lmem_init).1 16 =
      ((lmem_alloc_many 16 LMEM_MAX_BLOCK lmem_init).1, 0) := by
  have hN : LMEM_MAX_BLOCK = 64 := rfl
  have hS : LMEM_START = 65536 := rfl
  have hrun := lmem_alloc_many_fill LMEM_MAX_BLOCK 0 (by omega)
  rw [← lmem_init_eq_fill] at hrun
  have haddr : (List.range LMEM_MAX_BLOCK).map (fun j => LMEM_START + 16 * (0 + j)) =
      (List.range LMEM_MAX_BLOCK).map (fun j => LMEM_START + 16 * j) := by
    apply List.map_congr_left
    intro j _
    simp
  rw [hrun, haddr]
  refine ⟨rfl, by simp [hN], ?_, ?_, ?_, ?_⟩
  · apply List.Nodup.map _ (List.nodup_range _)
    intro x y hxy
    simp only at hxy
    omega
  · intro a ha
    simp only [List.mem_map] at ha
    obtain ⟨j, _, hj⟩ := ha
    omega
  · intro i hi
    simp only
    rw [lget_lmem_fill, if_pos (by omega)]
    exact ⟨rfl, by simp only; omega⟩
  · have e63 : lget (lmem_fill (0 + LMEM_MAX_BLOCK)) (LMEM_MAX_BLOCK - 1) =
        ⟨LMEM_START + 16 * (LMEM_MAX_BLOCK - 1), 16⟩ := by
      rw [lget_lmem_fill, if_pos (by omega)]
    unfold lmem_alloc
    rw [if_pos (Or.inr (by rw [e63]; simp))]

/-- C15: every region table reachable from the empty table by `lmem_alloc` and
`lmem_free` calls has a count `k ≤ LMEM_MAX_BLOCK` = 64 such that the entries at
indices below `k` are live (start not 0) and every entry at an index from `k` on
is zeroed (start 0 and size 0). -/
theorem lmem_reachable_gap_free_prefix (lmem : List LMEMBLOCK) (h : LmemReachable lmem) :
    ∃ k, k ≤ LMEM_MAX_BLOCK ∧ (∀ i, i < k → (lget lmem i).start ≠ 0) ∧
      (∀ i, k ≤ i → i < LMEM_MAX_BLOCK → (lget lmem i).start = 0 ∧ (lget lmem i).size = 0) ∧
      lmem.length = LMEM_MAX_BLOCK ∧ LMEM_MAX_BLOCK = 64 := by
  obtain ⟨hlen, k, hk, hlive, hzero⟩ := lmem_reachable_prefix lmem h
  refine ⟨k, hk, hlive, fun i h1 h2 => ?_, hlen, rfl⟩
  rw [hzero i h1 h2]
  exact ⟨rfl, rfl⟩

/-- C15, on the table left by `lmem_alloc(32)`, `lmem_alloc(16)`. -/
theorem lmem_reachable_gap_free_prefix_witness :
    LmemReachable lmem_two_state ∧
    ∃ k, k ≤ LMEM_MAX_BLOCK ∧ (∀ i, i < k → (lget lmem_two_state i).start ≠ 0) ∧
      (∀ i, k ≤ i → i < LMEM_MAX_BLOCK →
        (lget lmem_two_state i).start = 0 ∧ (lget lmem_two_state i).size = 0) ∧
      lmem_two_state.length = LMEM_MAX_BLOCK ∧ LMEM_MAX_BLOCK = 64 :=
  ⟨LmemReachable.alloc _ 16 (by decide) (LmemReachable.alloc _ 32 (by decide) LmemReachable.init),
    lmem_reachable_gap_free_prefix lmem_two_state
      (LmemReachable.alloc _ 16 (by decide)
        (LmemReachable.alloc _ 32 (by decide) LmemReachable.init))⟩

/-- C16: for every block table, `heap_free` of the null address leaves the table
unchanged; `heap_free` of an address that is the owner of no in-use slot leaves
the table unchanged; and a second `heap_free` of the same address changes nothing
more. -/
theorem heap_free_noop_and_idempotent (heap : List HEAPBLOCK) (a : Nat) :
    heap_free heap 0 = heap ∧
    ((∀ i, i < HEAP_MAX_BLOCK → ¬ ((hget heap i).ptr = a ∧ (hget heap i).used ≠ 0)) →
      heap_free heap a = heap) ∧
    heap_free (heap_free heap a) a = heap_free heap a := by
  refine ⟨?_, fun hno => ?_, ?_⟩
  · unfold heap_free
    rw [if_neg (by simp)]
  · apply heap_ext
    · exact length_heap_free _ _
    · intro i _
      rw [hget_heap_free, if_neg]
      intro hc
      exact hno i hc.2.1 hc.2.2
  · apply heap_ext
    · exact length_heap_free _ _
    · intro i _
      rw [hget_heap_free (heap_free heap a), if_neg]
      intro hc
      obtain ⟨ha, hi, hp, hu⟩ := hc
      rw [hget_heap_free] at hp hu
      by_cases hc1 : a ≠ 0 ∧ i < HEAP_MAX_BLOCK ∧ (hget heap i).ptr = a ∧ (hget heap i).used ≠ 0
      · rw [if_pos hc1] at hu
        exact hu rfl
      · rw [if_neg hc1] at hp hu
        exact hc1 ⟨ha, hi, hp, hu⟩

/-! ## Lemmas on strings -/

theorem getD_ne_zero_of_lt (s : List Nat) (hnz : ∀ c, c ∈ s → c ≠ 0) (k : Nat)
    (hk : k < s.length) : s.getD k 0 ≠ 0 := by
  rw [List.getD_eq_getElem _ _ hk]
  exact hnz _ (List.getElem_mem _)

theorem getD_zero_of_le (s : List Nat) (k : Nat) (hk : s.length ≤ k) : s.getD k 0 = 0 := by
  rw [List.getD_eq_getElem?_getD, List.getElem?_eq_none hk]
  rfl

theorem getD_take (s : List Nat) (n k : Nat) (hk : k < n) :
    (s.take n).getD k 0 = s.getD k 0 := by
  rw [List.getD_eq_getElem?_getD, List.getD_eq_getElem?_getD, List.getElem?_take, if_pos hk]

theorem getD_append_lt (s e : List Nat) (k : Nat) (hk : k < s.length) :
    (s ++ e).getD k 0 = s.getD k 0 := by
  rw [List.getD_eq_getElem?_getD, List.getD_eq_getElem?_getD, List.getElem?_append_left hk]

theorem getD_append_ge (s e : List Nat) (k : Nat) (hk : s.length ≤ k) :
    (s ++ e).getD k 0 = e.getD (k - s.length) 0 := by
  rw [List.getD_eq_getElem?_getD, List.getD_eq_getElem?_getD, List.getElem?_append_right hk]

/-- A buffer that holds `s` has `s` as its C string. -/
theorem cstr_of_holds (s : List Nat) : ∀ (mem : List Nat), HoldsStr mem s → cstr mem = s := by
  induction s with
  | nil =>
    intro mem h
    obtain ⟨hl, _, h0, _⟩ := h
    cases mem with
    | nil => simp at hl
    | cons b rest =>
      simp only [List.length_nil, List.getD_cons_zero] at h0
      subst h0
      simp [cstr]
  | cons c s ih =>
    intro mem h
    obtain ⟨hl, hk, h0, hnz⟩ := h
    cases mem with
    | nil => simp at hl
    | cons b rest =>
      have hb : b = c := by
        have := hk 0 (by simp)
        simpa using this
      subst hb
      have hc : b ≠ 0 := hnz b (by simp)
      have hrest : HoldsStr rest s := by
        refine ⟨by simpa using hl, fun k hk2 => ?_, ?_, fun x hx => hnz x (by simp [hx])⟩
        · have := hk (k + 1) (by simpa using hk2)
          simpa using this
        · simpa using h0
      have := ih rest hrest
      unfold cstr at this ⊢
      rw [List.takeWhile_cons]
      simp [hc, this]

theorem strlen_loop_eq (mem : List Nat) (m : Nat) (h0 : mem.getD m 0 = 0) (fuel : Nat) :
    ∀ i, i ≤ m → m - i < fuel → (∀ k, i ≤ k → k < m → mem.getD k 0 ≠ 0) →
      strlen_loop mem fuel i = m := by
  induction fuel with
  | zero => intro i _ h; omega
  | succ fuel ih =>
    intro i hi hf hnz
    simp only [strlen_loop]
    by_cases him : i = m
    · subst him
      rw [if_neg (by simpa using h0)]
    · rw [if_pos (hnz i (Nat.le_refl _) (by omega))]
      exact ih (i + 1) (by omega) (by omega) (fun k h1 h2 => hnz k (by omega) h2)

theorem strlen_of_holds (mem s : List Nat) (h : HoldsStr mem s) : strlen mem = s.length := by
  obtain ⟨hl, hk, h0, hnz⟩ := h
  unfold strlen
  apply strlen_loop_eq mem s.length h0 mem.length 0 (by omega) (by omega)
  intro k _ h2
  rw [hk k h2]
  exact getD_ne_zero_of_lt s hnz k h2

theorem strchr_loop_zero (mem : List Nat) (c m : Nat) (h0 : mem.getD m 0 = 0) (fuel : Nat) :
    ∀ n, n ≤ m → (∀ k, n ≤ k → k < m → mem.getD k 0 ≠ 0 ∧ mem.getD k 0 ≠ c) →
      strchr_loop mem c fuel n = 0 := by
  induction fuel with
  | zero => intro n _ _; rfl
  | succ fuel ih =>
    intro n hn hall
    simp only [strchr_loop]
    by_cases hnm : n = m
    · subst hnm
      rw [if_neg (by simpa using h0)]
    · have := hall n (Nat.le_refl _) (by omega)
      rw [if_pos this.1, if_neg this.2]
      exact ih (n + 1) (by omega) (fun k h1 h2 => hall k (by omega) h2)

theorem strchr_loop_pos (mem : List Nat) (c j : Nat) (hj : mem.getD j 0 = c) (fuel : Nat) :
    ∀ n, n ≤ j → j - n < fuel → (∀ k, n ≤ k → k ≤ j → mem.getD k 0 ≠ 0) →
      strchr_loop mem c fuel n ≠ 0 := by
  induction fuel with
  | zero => intro n _ h; omega
  | succ fuel ih =>
    intro n hn hf hnz
    simp only [strchr_loop]
    rw [if_pos (hnz n (Nat.le_refl _) hn)]
    by_cases hc : mem.getD n 0 = c
    · rw [if_pos hc]; omega
    · rw [if_neg hc]
      have hne : n ≠ j := fun h => hc (h ▸ hj)
      exact ih (n + 1) (by omega) (by omega) (fun k h1 h2 => hnz k (by omega) h2)

/-- On a buffer that holds `s`, `strchr` returns 0 exactly when `c` is not in `s`. -/
theorem strchr_of_holds (mem s : List Nat) (c : Nat) (h : HoldsStr mem s) :
    strchr mem c = 0 ↔ c ∉ s := by
  obtain ⟨hl, hk, h0, hnz⟩ := h
  unfold strchr
  constructor
  · intro hz hc
    obtain ⟨j, hjl, hj⟩ := List.getElem_of_mem hc
    have hmj : mem.getD j 0 = c := by
      rw [hk j hjl, List.getD_eq_getElem _ _ hjl, hj]
    refine strchr_loop_pos mem c j hmj _ 0 (by omega) (by omega) ?_ hz
    intro k _ h2
    rw [hk k (by omega)]
    exact getD_ne_zero_of_lt s hnz k (by omega)
  · intro hc
    apply strchr_loop_zero mem c s.length h0 _ 0 (by omega)
    intro k _ h2
    rw [hk k h2]
    refine ⟨getD_ne_zero_of_lt s hnz k h2, fun heq => hc ?_⟩
    rw [← heq, List.getD_eq_getElem _ _ h2]
    exact List.getElem_mem _

/-- The loop of `strcpy_s` on a source of non-zero bytes stops at
`m = min (length of the source) (dst_size - 1)` and has copied the bytes below `m`. -/
theorem strcpy_s_loop_spec (src : List Nat) (hnz : ∀ c, c ∈ src → c ≠ 0) (N m : Nat)
    (hm : m = min src.length (N - 1)) (hN : 1 ≤ N) (fuel : Nat) :
    ∀ (i : Nat) (dst : List Nat), i ≤ m → m - i < fuel → dst.length = N →
      (strcpy_s_loop src N fuel i dst).2 = m ∧
      (strcpy_s_loop src N fuel i dst).1.length = N ∧
      ∀ k, (strcpy_s_loop src N fuel i dst).1.getD k 0 =
        if i ≤ k ∧ k < m then src.getD k 0 else dst.getD k 0 := by
  induction fuel with
  | zero => intro i _ _ h; omega
  | succ fuel ih =>
    intro i dst hi hf hlen
    simp only [strcpy_s_loop]
    by_cases him : i < m
    · have hc : src.getD i 0 ≠ 0 ∧ i + 1 < N :=
        ⟨getD_ne_zero_of_lt src hnz i (by omega), by omega⟩
      rw [if_pos hc]
      obtain ⟨h1, h2, h3⟩ := ih (i + 1) (dst.set i (src.getD i 0)) (by omega) (by omega)
        (by simpa using hlen)
      refine ⟨h1, h2, fun k => ?_⟩
      rw [h3 k]
      by_cases hki : k = i
      · subst hki
        rw [if_neg (by omega), if_pos ⟨Nat.le_refl _, him⟩, getD_set_eq _ _ _ _ (by omega)]
      · rw [getD_set_ne _ _ _ _ _ hki]
        by_cases hr : i ≤ k ∧ k < m
        · rw [if_pos ⟨by omega, hr.2⟩, if_pos hr]
        · rw [if_neg (by omega), if_neg hr]
    · have hc : ¬ (src.getD i 0 ≠ 0 ∧ i + 1 < N) := by
        intro h
        have : i < src.length := by
          by_contra hge
          exact h.1 (getD_zero_of_le src i (by omega))
        omega
      rw [if_neg hc]
      refine ⟨by simp only; omega, hlen, fun k => ?_⟩
      rw [if_neg (by omega)]

/-- After `strcpy_s` into a buffer of `N ≥ 1` bytes the buffer holds the first
`N - 1` bytes of the source. -/
theorem strcpy_s_holds (dst src : List Nat) (N : Nat) (hN : 1 ≤ N) (hlen : dst.length = N)
    (hnz : ∀ c, c ∈ src → c ≠ 0) : HoldsStr (strcpy_s dst src N).1 (src.take (N - 1)) := by
  obtain ⟨h1, h2, h3⟩ := strcpy_s_loop_spec src hnz N (min src.length (N - 1)) rfl hN N 0 dst
    (by omega) (by omega) hlen
  have hl : (src.take (N - 1)).length = min src.length (N - 1) := by
    rw [List.length_take, Nat.min_comm]
  unfold strcpy_s
  simp only
  rw [h1]
  refine ⟨?_, ?_, ?_, ?_⟩
  · rw [List.length_set, h2, hl]; omega
  · intro k hk
    rw [hl] at hk
    rw [getD_set_ne _ _ _ _ _ (by omega), h3 k, if_pos ⟨by omega, hk⟩, getD_take _ _ _ (by omega)]
  · rw [hl, getD_set_eq _ _ _ _ (by rw [h2]; omega)]
  · intro c hc
    exact hnz c (List.mem_of_mem_take hc)

/-- The loop of `strcat_s` entered with `i = n + j` on a source of non-zero bytes
stops after `a = min (length of the source) (dst_size - 1 - n)` bytes. -/
theorem strcat_s_loop_spec (src : List Nat) (hnz : ∀ c, c ∈ src → c ≠ 0) (N n a : Nat)
    (ha : a = min src.length (N - 1 - n)) (hn : n < N) (fuel : Nat) :
    ∀ (j : Nat) (dst : List Nat), j ≤ a → a - j < fuel → dst.length = N →
      (strcat_s_loop src N fuel (n + j) j dst).2 = n + a ∧
      (strcat_s_loop src N fuel (n + j) j dst).1.length = N ∧
      ∀ k, (strcat_s_loop src N fuel (n + j) j dst).1.getD k 0 =
        if n + j ≤ k ∧ k < n + a then src.getD (k - n) 0 else dst.getD k 0 := by
  induction fuel with
  | zero => intro j _ _ h; omega
  | succ fuel ih =>
    intro j dst hj hf hlen
    simp only [strcat_s_loop]
    by_cases hja : j < a
    · have hc : src.getD j 0 ≠ 0 ∧ n + j + 1 < N :=
        ⟨getD_ne_zero_of_lt src hnz j (by omega), by omega⟩
      rw [if_pos hc]
      obtain ⟨h1, h2, h3⟩ := ih (j + 1) (dst.set (n + j) (src.getD j 0)) (by omega) (by omega)
        (by simpa using hlen)
      refine ⟨h1, h2, fun k => ?_⟩
      have e : n + j + 1 = n + (j + 1) := by omega
      rw [e, h3 k]
      by_cases hki : k = n + j
      · subst hki
        rw [if_neg (by omega), if_pos ⟨Nat.le_refl _, by omega⟩,
          getD_set_eq _ _ _ _ (by omega)]
        congr 1
        omega
      · rw [getD_set_ne _ _ _ _ _ hki]
        by_cases hr : n + j ≤ k ∧ k < n + a
        · rw [if_pos ⟨by omega, hr.2⟩, if_pos hr]
        · rw [if_neg (by omega), if_neg hr]
    · have hc : ¬ (src.getD j 0 ≠ 0 ∧ n + j + 1 < N) := by
        intro h
        have : j < src.length := by
          by_contra hge
          exact h.1 (getD_zero_of_le src j (by omega))
        omega
      rw [if_neg hc]
      refine ⟨by simp only; omega, hlen, fun k => ?_⟩
      rw [if_neg (by omega)]

/-- After `strcat_s` on a buffer of `N` bytes that holds `s`, the buffer holds the
first `N - 1` bytes of `s` followed by the source. -/
theorem strcat_s_holds (dst s src : List Nat) (N : Nat) (hlen : dst.length = N)
    (hs : HoldsStr dst s) (hnz : ∀ c, c ∈ src → c ≠ 0) :
    HoldsStr (strcat_s dst src N).1 ((s ++ src).take (N - 1)) := by
  have hsl := strlen_of_holds dst s hs
  obtain ⟨hl, hk, h0, hsnz⟩ := hs
  obtain ⟨h1, h2, h3⟩ := strcat_s_loop_spec src hnz N s.length
    (min src.length (N - 1 - s.length)) rfl (by omega) N 0 dst (by omega) (by omega) hlen
  have hlt : ((s ++ src).take (N - 1)).length = s.length + min src.length (N - 1 - s.length) := by
    rw [List.length_take, List.length_append]
    omega
  unfold strcat_s
  simp only
  rw [hsl]
  rw [Nat.add_zero] at h1 h2 h3
  rw [h1]
  refine ⟨?_, ?_, ?_, ?_⟩
  · rw [List.length_set, h2, hlt]; omega
  · intro k hk2
    rw [hlt] at hk2
    rw [getD_set_ne _ _ _ _ _ (by omega), h3 k, getD_take _ _ _ (by omega)]
    by_cases hks : k < s.length
    · rw [if_neg (by omega), getD_append_lt _ _ _ hks, hk k hks]
    · rw [if_pos ⟨by omega, hk2⟩, getD_append_ge _ _ _ (by omega)]
  · rw [hlt, getD_set_eq _ _ _ _ (by rw [h2]; omega)]
  · intro c hc
    have := List.mem_of_mem_take hc
    rcases List.mem_append.mp this with h | h
    · exact hsnz c h
    · exact hnz c h

/-! ## Theorems on the dispatcher and the loader -/

/-- C17: for every service code that is none of the codes handled by the `switch`
and every parameter record, `kernel_service` returns 0 and leaves the state as it
was: the heap block table, the region table and the parameter record are
unchanged and no action (collaborator call or store) is added. -/
theorem kernel_service_unknown (sc : SYSCALLS) (env : ENV) (HEAPADDR fuel service param : Nat)
    (s : KSTATE) (h : service ∉ sc.handled) :
    kernel_service sc env HEAPADDR fuel service param s = some (0, s) := by
  simp only [SYSCALLS.handled, SYSCALLS.before_clk, List.mem_append, List.mem_cons,
    List.mem_singleton, List.not_mem_nil, not_or, or_false] at h
  obtain ⟨⟨h1, h2, h3, h4, h5, h6, h7, h8, h9, h10, h11, h12, h13, h14, h15, h16, h17, h18, h19, h20, h21, h22, h23, h24, h25, h26, h27⟩, h28⟩ := h
  unfold kernel_service
  rw [if_neg h1, if_neg h2, if_neg h3, if_neg h4, if_neg h5, if_neg h6, if_neg h7, if_neg h8, if_neg h9, if_neg h10, if_neg h11, if_neg h12, if_neg h13, if_neg h14, if_neg h15, if_neg h16, if_neg h17, if_neg h18, if_neg h19, if_neg h20, if_neg h21, if_neg h22, if_neg h23, if_neg h24, if_neg h25, if_neg h26, if_neg h27, if_neg h28]

/-- C17, with the sample codes 0..27, the service code 0xFFFF and the initial state. -/
theorem kernel_service_unknown_witness :
    0xFFFF ∉ syscalls_sample.handled ∧
    kernel_service syscalls_sample env_sample 0x4000 10 0xFFFF 0 kstate_init =
      some (0, kstate_init) :=
  ⟨by decide, kernel_service_unknown syscalls_sample env_sample 0x4000 10 0xFFFF 0 kstate_init
    (by decide)⟩

/-- C18: for the declared file size 0x10000 the count passed to `fs_read_file` is
0, and for 0x1234F it is 0x234F, while the lesser of the size and
`0xFFFF - EXTERN_PROGRAM_MEMLOC` is 0x2FFF in both cases: the cast `(uint)` drops
the high 16 bits of the size before `min` is taken. A loader run on an entry of
size 0x10000 requests a read of 0 bytes. -/
theorem loader_read_count_truncated :
    loader_read_count 0x10000 = 0 ∧ loader_read_count 0x1234F = 0x234F ∧
    min 0x10000 (0xFFFF - EXTERN_PROGRAM_MEMLOC) = 0x2FFF ∧
    min 0x1234F (0xFFFF - EXTERN_PROGRAM_MEMLOC) = 0x2FFF ∧
    (loader 0xFF00 1 0xFF01 (fun _ => (0, 1, 0x10000)) (fun _ count => count)
      (List.replicate 32 0) [104, 105]).read = some 0 := by
  decide

/-- C19, as stated: the command name of 28 letters `a` contains no `'.'`, yet the
name resolved is the 28 letters followed by `".bi"`, not by `".bin"`: the buffer
`prog_file_name[32]` has no room for the last letter. -/
theorem loader_file_name_28 :
    (46 : Nat) ∉ List.replicate 28 97 ∧
    cstr (loader_file_name (List.replicate 32 0) (List.replicate 28 97)) =
      List.replicate 28 97 ++ [46, 98, 105] ∧
    cstr (loader_file_name (List.replicate 32 0) (List.replicate 28 97)) ≠
      List.replicate 28 97 ++ prog_ext := by
  decide

/-- C19, amended: for every command name (of non-zero bytes, in a buffer of 32
bytes) that contains no `'.'`, the file name the loader resolves is the command
name with `".bin"` appended, cut to the 31 bytes the buffer holds, hence with
`".bin"` in full when the name has at most 27 bytes; a command name that contains
`'.'` gets no extension appended (it is cut to 31 bytes). -/
theorem loader_file_name_ext (prog_file_name name : List Nat)
    (hbuf : prog_file_name.length = 32) (hnz : ∀ c, c ∈ name → c ≠ 0) :
    (46 ∉ name → cstr (loader_file_name prog_file_name name) = (name ++ prog_ext).take 31) ∧
    (46 ∉ name → name.length ≤ 27 →
      cstr (loader_file_name prog_file_name name) = name ++ prog_ext) ∧
    (46 ∈ name → cstr (loader_file_name prog_file_name name) = name.take 31) ∧
    (∀ ea tf enf g r, (loader ea tf enf g r prog_file_name name).name =
      cstr (loader_file_name prog_file_name name)) := by
  have h1 : HoldsStr (strcpy_s prog_file_name name 32).1 (name.take 31) :=
    strcpy_s_holds prog_file_name name 32 (by omega) hbuf hnz
  have hl1 : (strcpy_s prog_file_name name 32).1.length = 32 := by
    unfold strcpy_s
    simp only [List.length_set]
    exact (strcpy_s_loop_spec name hnz 32 _ rfl (by omega) 32 0 prog_file_name
      (by omega) (by omega) hbuf).2.1
  have hext : ∀ c, c ∈ prog_ext → c ≠ 0 := by decide
  have hno : 46 ∉ name.take 31 →
      cstr (loader_file_name prog_file_name name) = (name.take 31 ++ prog_ext).take 31 := by
    intro h
    unfold loader_file_name
    simp only
    rw [if_pos ((strchr_of_holds _ _ 46 h1).mpr h)]
    exact cstr_of_holds _ _ (strcat_s_holds _ _ prog_ext 32 hl1 h1 hext)
  have hyes : 46 ∈ name.take 31 →
      cstr (loader_file_name prog_file_name name) = name.take 31 := by
    intro h
    unfold loader_file_name
    simp only
    rw [if_neg (fun hz => (strchr_of_holds _ _ 46 h1).mp hz h)]
    exact cstr_of_holds _ _ h1
  have hcut : (name.take 31 ++ prog_ext).take 31 = (name ++ prog_ext).take 31 := by
    by_cases hlen : name.length ≤ 31
    · rw [List.take_of_length_le hlen]
    · rw [List.take_append_of_le_length (by simp; omega),
        List.take_append_of_le_length (by omega), List.take_take]
      simp
  have hnodot : 46 ∉ name → cstr (loader_file_name prog_file_name name) =
      (name ++ prog_ext).take 31 := by
    intro h
    rw [hno (fun hc => h (List.mem_of_mem_take hc)), hcut]
  refine ⟨hnodot, fun h hlen => ?_, fun h => ?_, fun ea tf enf g r => ?_⟩
  · rw [hnodot h, List.take_of_length_le (by simp [prog_ext]; omega)]
  · by_cases hin : 46 ∈ name.take 31
    · exact hyes hin
    · rw [hno hin]
      have hlong : 31 < name.length := by
        by_contra hc
        rw [List.take_of_length_le (by omega)] at hin
        exact hin h
      rw [List.take_append_of_le_length (by simp; omega), List.take_take]
      simp
  · unfold loader
    simp only
    split
    · split <;> rfl
    · rfl

/-- C19 amended, for the command name `hi` in a zeroed buffer. -/
theorem loader_file_name_ext_witness :
    (List.replicate 32 0).length = 32 ∧ (∀ c, c ∈ [104, 105] → c ≠ 0) ∧
    ((46 ∉ [104, 105] → cstr (loader_file_name (List.replicate 32 0) [104, 105]) =
      ([104, 105] ++ prog_ext).take 31) ∧
    (46 ∉ [104, 105] → [104, 105].length ≤ 27 →
      cstr (loader_file_name (List.replicate 32 0) [104, 105]) = [104, 105] ++ prog_ext) ∧
    (46 ∈ [104, 105] → cstr (loader_file_name (List.replicate 32 0) [104, 105]) =
      [104, 105].take 31) ∧
    (∀ ea tf enf g r, (loader ea tf enf g r (List.replicate 32 0) [104, 105]).name =
      cstr (loader_file_name (List.replicate 32 0) [104, 105]))) :=
  ⟨by decide, by decide,
    loader_file_name_ext (List.replicate 32 0) [104, 105] (by decide) (by decide)⟩

/-- C20: `BCD_to_int` inverts the BCD encoding of every `n` in 0..99; and when the
service codes are pairwise distinct and `get_time` delivers the BCD bytes of
`hh:mm:ss` and of the date `yy-mo-dd`, `SYSCALL_CLK_GET_TIME` returns 0 and writes
hour `hh`, minute `mm`, second `ss`, year `2000 + yy`, month `mo` and day `dd` to
the record, leaving the two allocator tables unchanged. -/
theorem clk_get_time_decodes (sc : SYSCALLS) (env : ENV) (HEAPADDR fuel param : Nat)
    (s : KSTATE) (hh mm ss yy mo dd : Nat) (hd : sc.handled.Nodup)
    (hhh : hh < 100) (hmm : mm < 100) (hss : ss < 100) (hyy : yy < 100) (hmo : mo < 100)
    (hdd : dd < 100)
    (ht : env.BCDtime = [bcd_encode hh, bcd_encode mm, bcd_encode ss])
    (hdate : env.BCDdate = [bcd_encode yy, bcd_encode mo, bcd_encode dd]) :
    (∀ n, n < 100 → BCD_to_int (bcd_encode n) = n) ∧
    ∃ s1, kernel_service sc env HEAPADDR fuel sc.SYSCALL_CLK_GET_TIME param s = some (0, s1) ∧
      s1.record.hour = hh ∧ s1.record.minute = mm ∧ s1.record.second = ss ∧
      s1.record.year = 2000 + yy ∧ s1.record.month = mo ∧ s1.record.day = dd ∧
      s1.heap = s.heap ∧ s1.lmem = s.lmem := by
  have hbcd : ∀ n, n < 100 → BCD_to_int (bcd_encode n) = n := by decide
  refine ⟨hbcd, ?_⟩
  have hnot : sc.SYSCALL_CLK_GET_TIME ∉ sc.before_clk := by
    unfold SYSCALLS.handled at hd
    intro hmem
    exact (List.nodup_append.mp hd).2.2 hmem (List.mem_singleton.mpr rfl)
  simp only [SYSCALLS.before_clk, List.mem_cons, List.not_mem_nil, not_or, or_false] at hnot
  obtain ⟨h1, h2, h3, h4, h5, h6, h7, h8, h9, h10, h11, h12, h13, h14, h15, h16, h17, h18, h19, h20, h21, h22, h23, h24, h25, h26, h27⟩ := hnot
  unfold kernel_service
  rw [if_neg h1, if_neg h2, if_neg h3, if_neg h4, if_neg h5, if_neg h6, if_neg h7, if_neg h8, if_neg h9, if_neg h10, if_neg h11, if_neg h12, if_neg h13, if_neg h14, if_neg h15, if_neg h16, if_neg h17, if_neg h18, if_neg h19, if_neg h20, if_neg h21, if_neg h22, if_neg h23, if_neg h24, if_neg h25, if_neg h26, if_neg h27, if_pos rfl]
  refine ⟨_, rfl, ?_, ?_, ?_, ?_, ?_, ?_, rfl, rfl⟩
  · simp only [ht, List.getD_cons_zero]; exact hbcd hh hhh
  · simp only [ht, List.getD_cons_zero, List.getD_cons_succ]; exact hbcd mm hmm
  · simp only [ht, List.getD_cons_zero, List.getD_cons_succ]; exact hbcd ss hss
  · simp only [hdate, List.getD_cons_zero]; rw [hbcd yy hyy, Nat.add_comm]
  · simp only [hdate, List.getD_cons_zero, List.getD_cons_succ]; exact hbcd mo hmo
  · simp only [hdate, List.getD_cons_zero, List.getD_cons_succ]; exact hbcd dd hdd

/-- C20, with the sample codes and the sample clock 12:34:56 on 2024-11-30. -/
theorem clk_get_time_decodes_witness :
    syscalls_sample.handled.Nodup ∧ 12 < 100 ∧ 34 < 100 ∧ 56 < 100 ∧ 24 < 100 ∧ 11 < 100 ∧
    30 < 100 ∧ env_sample.BCDtime = [bcd_encode 12, bcd_encode 34, bcd_encode 56] ∧
    env_sample.BCDdate = [bcd_encode 24, bcd_encode 11, bcd_encode 30] ∧
    ((∀ n, n < 100 → BCD_to_int (bcd_encode n) = n) ∧
    ∃ s1, kernel_service syscalls_sample env_sample 0x4000 10
        syscalls_sample.SYSCALL_CLK_GET_TIME 0 kstate_init = some (0, s1) ∧
      s1.record.hour = 12 ∧ s1.record.minute = 34 ∧ s1.record.second = 56 ∧
      s1.record.year = 2000 + 24 ∧ s1.record.month = 11 ∧ s1.record.day = 30 ∧
      s1.heap = kstate_init.heap ∧ s1.lmem = kstate_init.lmem) :=
  ⟨by decide, by decide, by decide, by decide, by decide, by decide, by decide, by decide,
    by decide,
    clk_get_time_decodes syscalls_sample env_sample 0x4000 10 0 kstate_init 12 34 56 24 11 30
      (by decide) (by decide) (by decide) (by decide) (by decide) (by decide) (by decide)
      (by decide) (by decide)⟩

/-! ## Lemmas on `memcpy` with any distance between source and destination -/

theorem memcpy_loop_count {α : Type} (d : α) (dst src size : Nat) (rdir : Bool) (k : Nat) :
    ∀ (i : Nat) (mem : List α), (memcpy_loop d dst src size rdir k i mem).2 = i + k := by
  induction k with
  | zero => intro i mem; rfl
  | succ k ih =>
    intro i mem
    simp only [memcpy_loop]
    rw [ih]
    omega

/-- Forward copy, source above destination: the cells `dst+i .. dst+size-1`
receive the former contents of the cells at the same offsets from `src`. -/
theorem getD_memcpy_loop_fwd {α : Type} (d : α) (dst src size : Nat) (hsd : dst < src)
    (k : Nat) :
    ∀ (i : Nat) (mem : List α) (j : Nat), i + k = size → dst + size ≤ mem.length →
      (memcpy_loop d dst src size false k i mem).1.getD j d =
        if dst + i ≤ j ∧ j < dst + size then mem.getD (src + (j - dst)) d
        else mem.getD j d := by
  induction k with
  | zero =>
    intro i mem j hik _
    simp only [memcpy_loop]
    rw [if_neg (by omega)]
  | succ k ih =>
    intro i mem j hik hlen
    simp only [memcpy_loop, Bool.false_eq_true, if_false]
    rw [ih (i + 1) _ j (by omega) (by simpa using hlen)]
    by_cases hj : dst + i ≤ j ∧ j < dst + size
    · rw [if_pos hj]
      by_cases hji : j = dst + i
      · subst hji
        rw [if_neg (show ¬ (dst + (i + 1) ≤ dst + i ∧ dst + i < dst + size) by omega),
          getD_set_eq _ _ _ _ (by omega)]
        congr 1
        omega
      · rw [if_pos (show dst + (i + 1) ≤ j ∧ j < dst + size by omega),
          getD_set_ne _ _ _ _ _ (by omega)]
    · rw [if_neg hj, if_neg (show ¬ (dst + (i + 1) ≤ j ∧ j < dst + size) by omega),
        getD_set_ne _ _ _ _ _ (by omega)]

/-- Backward copy, source not above destination: with `k` iterations left the
cells `dst .. dst+k-1` receive the former contents of the cells at the same
offsets from `src`. -/
theorem getD_memcpy_loop_bwd {α : Type} (d : α) (dst src size : Nat) (hsd : src ≤ dst)
    (k : Nat) :
    ∀ (i : Nat) (mem : List α) (j : Nat), i + k = size → dst + size ≤ mem.length →
      (memcpy_loop d dst src size true k i mem).1.getD j d =
        if dst ≤ j ∧ j < dst + k then mem.getD (src + (j - dst)) d else mem.getD j d := by
  induction k with
  | zero =>
    intro i mem j hik _
    simp only [memcpy_loop]
    rw [if_neg (by omega)]
  | succ k ih =>
    intro i mem j hik hlen
    simp only [memcpy_loop, if_true]
    rw [ih (i + 1) _ j (by omega) (by simpa using hlen)]
    have e1 : size - 1 - i = k := by omega
    rw [e1]
    by_cases hj : dst ≤ j ∧ j < dst + (k + 1)
    · rw [if_pos hj]
      by_cases hji : j = dst + k
      · subst hji
        rw [if_neg (show ¬ (dst ≤ dst + k ∧ dst + k < dst + k) by omega),
          getD_set_eq _ _ _ _ (by omega)]
        congr 1
        omega
      · rw [if_pos (show dst ≤ j ∧ j < dst + k by omega),
          getD_set_ne _ _ _ _ _ (by omega)]
    · rw [if_neg hj, if_neg (show ¬ (dst ≤ j ∧ j < dst + k) by omega),
        getD_set_ne _ _ _ _ _ (by omega)]

/-- The loop of `strcpy_s` on a source whose first 0 is at index `L`, in a memory
that is at least `N` bytes long: it stops at `m = min L (N - 1)`, has copied the
bytes below `m` and has touched nothing else. -/
theorem strcpy_s_loop_general (src : List Nat) (L N m : Nat)
    (hnz : ∀ k, k < L → src.getD k 0 ≠ 0) (h0 : src.getD L 0 = 0)
    (hm : m = min L (N - 1)) (hN : 1 ≤ N) (fuel : Nat) :
    ∀ (i : Nat) (dst : List Nat), i ≤ m → m - i < fuel → N ≤ dst.length →
      (strcpy_s_loop src N fuel i dst).2 = m ∧
      (strcpy_s_loop src N fuel i dst).1.length = dst.length ∧
      ∀ k, (strcpy_s_loop src N fuel i dst).1.getD k 0 =
        if i ≤ k ∧ k < m then src.getD k 0 else dst.getD k 0 := by
  induction fuel with
  | zero => intro i _ _ h; omega
  | succ fuel ih =>
    intro i dst hi hf hlen
    simp only [strcpy_s_loop]
    by_cases him : i < m
    · have hc : src.getD i 0 ≠ 0 ∧ i + 1 < N := ⟨hnz i (by omega), by omega⟩
      rw [if_pos hc]
      obtain ⟨h1, h2, h3⟩ := ih (i + 1) (dst.set i (src.getD i 0)) (by omega) (by omega)
        (by simpa using hlen)
      refine ⟨h1, by rw [h2]; simp, fun k => ?_⟩
      rw [h3 k]
      by_cases hki : k = i
      · subst hki
        rw [if_neg (show ¬ (k + 1 ≤ k ∧ k < m) by omega), if_pos ⟨Nat.le_refl _, him⟩,
          getD_set_eq _ _ _ _ (by omega)]
      · rw [getD_set_ne _ _ _ _ _ hki]
        by_cases hr : i ≤ k ∧ k < m
        · rw [if_pos (show i + 1 ≤ k ∧ k < m by omega), if_pos hr]
        · rw [if_neg (show ¬ (i + 1 ≤ k ∧ k < m) by omega), if_neg hr]
    · have hc : ¬ (src.getD i 0 ≠ 0 ∧ i + 1 < N) := by
        intro h
        have hiL : i ≠ L := fun e => h.1 (e ▸ h0)
        omega
      rw [if_neg hc]
      refine ⟨by simp only; omega, rfl, fun k => ?_⟩
      rw [if_neg (show ¬ (i ≤ k ∧ k < m) by omega)]

/-- For `dst_size ≥ 1`, `strcpy_s` stays inside `dst[0 .. dst_size-1]`: with the
first 0 of `src` at index `L` it returns `m = min L (dst_size - 1)`, leaves the
first `m` bytes of `src` followed by 0 in `dst`, and changes no byte of the
memory from index `dst_size` on. -/
theorem strcpy_s_within_bounds (dst src : List Nat) (L N : Nat)
    (hnz : ∀ k, k < L → src.getD k 0 ≠ 0) (h0 : src.getD L 0 = 0) (hN : 1 ≤ N)
    (hlen : N ≤ dst.length) :
    (strcpy_s dst src N).2 = min L (N - 1) ∧
    (∀ k, k < min L (N - 1) → (strcpy_s dst src N).1.getD k 0 = src.getD k 0) ∧
    (strcpy_s dst src N).1.getD (min L (N - 1)) 0 = 0 ∧
    (∀ k, N ≤ k → (strcpy_s dst src N).1.getD k 0 = dst.getD k 0) ∧
    (strcpy_s dst src N).1.length = dst.length := by
  obtain ⟨h1, h2, h3⟩ := strcpy_s_loop_general src L N (min L (N - 1)) hnz h0 rfl hN N 0 dst
    (by omega) (by omega) hlen
  unfold strcpy_s
  simp only
  rw [h1]
  refine ⟨rfl, fun k hk => ?_, ?_, fun k hk => ?_, ?_⟩
  · rw [getD_set_ne _ _ _ _ _ (by omega), h3 k, if_pos ⟨by omega, hk⟩]
  · rw [getD_set_eq _ _ _ _ (by rw [h2]; omega)]
  · rw [getD_set_ne _ _ _ _ _ (by omega), h3 k, if_neg (by omega)]
  · rw [List.length_set, h2]

/-- Removing a descriptor whose start is the non-zero `ptr` lowers by one the
number of descriptors whose start is `ptr`. -/
theorem lmem_free_step_count (t : List LMEMBLOCK) (ptr i : Nat) (hp : ptr ≠ 0)
    (hlen : t.length = LMEM_MAX_BLOCK) (hi : i < LMEM_MAX_BLOCK)
    (hm : (lget t i).start = ptr) :
    (lmem_free_step t i).countP (fun e => e.start == ptr) + 1 =
      t.countP (fun e => e.start == ptr) := by
  have hz : ¬ (0 = ptr) := fun h => hp h.symm
  have hget : lget t i = t[i] := by
    unfold lget
    exact List.getD_eq_getElem _ _ (by omega)
  rw [hget] at hm
  unfold lmem_free_step
  rw [lmem_remove_eq t i hlen hi]
  have hsplit : t = t.take i ++ t.drop i := (List.take_append_drop i t).symm
  have hdrop : t.drop i = t[i] :: t.drop (i + 1) := List.drop_eq_getElem_cons (by omega)
  have hcount : t.countP (fun e => e.start == ptr) =
      (t.take i).countP (fun e => e.start == ptr) +
        ((t.drop (i + 1)).countP (fun e => e.start == ptr) + 1) := by
    conv_lhs => rw [hsplit, hdrop]
    rw [List.countP_append, List.countP_cons]
    simp [hm]
  rw [hcount, List.countP_append, List.countP_append]
  simp [List.countP_cons, hz]
  omega

theorem lmem_length_filter_add_countP (l : List LMEMBLOCK) (a : Nat) :
    (l.filter (fun e => e.start != a)).length + l.countP (fun e => e.start == a) =
      l.length := by
  induction l with
  | nil => rfl
  | cons x xs ih =>
    by_cases h : x.start = a
    · simp only [List.filter_cons, List.countP_cons, List.length_cons, h, bne_self_eq_false,
        beq_self_eq_true, if_true, Bool.false_eq_true, if_false]
      omega
    · have h1 : (x.start != a) = true := by simpa using h
      have h2 : (x.start == a) = false := by simpa using h
      simp only [List.filter_cons, List.countP_cons, List.length_cons, h1, h2, if_true,
        Bool.false_eq_true, if_false]
      omega

/-! ## Theorems on `strcpy_s`, `memcpy` and the termination of region free -/

/-- C21: with `dst_size = 0` and the memory `7, 7` at `dst`, `strcpy_s` returns 0
and leaves `0, 7`: it has written the terminator to `dst[0]`, one element more
than the `dst_size` elements it may touch. With `dst_size = 1` the same write is
inside the bounds. -/
theorem strcpy_s_size_zero_writes :
    strcpy_s [7, 7] [104, 105, 0] 0 = ([0, 7], 0) ∧
    ([7, 7] : List Nat).getD 0 0 ≠ (strcpy_s [7, 7] [104, 105, 0] 0).1.getD 0 0 ∧
    strcpy_s [7, 7] [104, 105, 0] 1 = ([0, 7], 0) := by
  decide

/-- C22: for every memory and every `dst`, `src` and `size` whose two ranges lie
inside the memory, after `memcpy(dst, src, size)` the cells `dst[0..size)` hold
what the cells `src[0..size)` held before the call, whether or not the ranges
overlap and whichever is lower; the cells outside `dst[0..size)` are unchanged;
and the value returned is `size`. -/
theorem memcpy_overlap_safe {α : Type} (d : α) (mem : List α) (dst src size : Nat)
    (hdst : dst + size ≤ mem.length) (_hsrc : src + size ≤ mem.length) :
    (∀ k, k < size → (memcpy d mem dst src size).1.getD (dst + k) d = mem.getD (src + k) d) ∧
    (∀ j, j < dst ∨ dst + size ≤ j → (memcpy d mem dst src size).1.getD j d = mem.getD j d) ∧
    (memcpy d mem dst src size).2 = size ∧
    (memcpy d mem dst src size).1.length = mem.length := by
  have hcount : (memcpy d mem dst src size).2 = size := by
    unfold memcpy
    rw [memcpy_loop_count]
    omega
  refine ⟨?_, ?_, hcount, length_memcpy _ _ _ _ _⟩
  · intro k hk
    unfold memcpy
    by_cases hsd : src > dst
    · rw [if_pos hsd, getD_memcpy_loop_fwd d dst src size hsd size 0 mem _ (by omega) hdst,
        if_pos (show dst + 0 ≤ dst + k ∧ dst + k < dst + size by omega)]
      congr 1
      omega
    · rw [if_neg hsd, getD_memcpy_loop_bwd d dst src size (by omega) size 0 mem _ (by omega) hdst,
        if_pos (show dst ≤ dst + k ∧ dst + k < dst + size by omega)]
      congr 1
      omega
  · intro j hj
    unfold memcpy
    by_cases hsd : src > dst
    · rw [if_pos hsd, getD_memcpy_loop_fwd d dst src size hsd size 0 mem _ (by omega) hdst,
        if_neg (show ¬ (dst + 0 ≤ j ∧ j < dst + size) by omega)]
    · rw [if_neg hsd, getD_memcpy_loop_bwd d dst src size (by omega) size 0 mem _ (by omega) hdst,
        if_neg (show ¬ (dst ≤ j ∧ j < dst + size) by omega)]

/-- C22, on the memory `1, 2, 3, 4, 5` with `dst = 1`, `src = 0`, `size = 3`: the
ranges overlap with the destination above the source. -/
theorem memcpy_overlap_safe_witness :
    1 + 3 ≤ ([1, 2, 3, 4, 5] : List Nat).length ∧ 0 + 3 ≤ ([1, 2, 3, 4, 5] : List Nat).length ∧
    ((∀ k, k < 3 → (memcpy 0 [1, 2, 3, 4, 5] 1 0 3).1.getD (1 + k) 0 =
        ([1, 2, 3, 4, 5] : List Nat).getD (0 + k) 0) ∧
    (∀ j, j < 1 ∨ 1 + 3 ≤ j → (memcpy 0 [1, 2, 3, 4, 5] 1 0 3).1.getD j 0 =
        ([1, 2, 3, 4, 5] : List Nat).getD j 0) ∧
    (memcpy 0 [1, 2, 3, 4, 5] 1 0 3).2 = 3 ∧
    (memcpy 0 [1, 2, 3, 4, 5] 1 0 3).1.length = ([1, 2, 3, 4, 5] : List Nat).length) :=
  ⟨by decide, by decide, memcpy_overlap_safe 0 [1, 2, 3, 4, 5] 1 0 3 (by decide) (by decide)⟩

/-- C23: for every region table of `LMEM_MAX_BLOCK` descriptors (several of which
may share a start) and every address `a`, `lmem_free(a)` ends: the loop returns a
table within `2 * LMEM_MAX_BLOCK` iterations, and every larger bound gives the
same table. Each removal lowers by one the number of descriptors whose start is
the non-zero `a`, the index staying where it is; and on exit no descriptor has
start `a` when `a` is not zero. -/
theorem lmem_free_terminates (lmem : List LMEMBLOCK) (a : Nat)
    (hlen : lmem.length = LMEM_MAX_BLOCK) :
    (∃ t, lmem_free lmem a = some t ∧ t.length = LMEM_MAX_BLOCK ∧
      (a ≠ 0 → ∀ i, i < LMEM_MAX_BLOCK → (lget t i).start ≠ a)) ∧
    (a ≠ 0 → ∀ fuel, 2 * LMEM_MAX_BLOCK ≤ fuel →
      lmem_free_loop a fuel 0 lmem = lmem_free lmem a) ∧
    (a ≠ 0 → ∀ (t : List LMEMBLOCK) (i fuel : Nat), t.length = LMEM_MAX_BLOCK →
      i < LMEM_MAX_BLOCK → (lget t i).start = a →
      lmem_free_loop a (fuel + 1) i t = lmem_free_loop a fuel i (lmem_free_step t i) ∧
      (lmem_free_step t i).countP (fun e => e.start == a) + 1 =
        t.countP (fun e => e.start == a)) := by
  have hN : LMEM_MAX_BLOCK = 64 := rfl
  have hc : lmem.countP (fun e => e.start == a) ≤ lmem.length := List.countP_le_length _
  have hloop : a ≠ 0 → ∀ fuel, 2 * LMEM_MAX_BLOCK ≤ fuel → lmem_free_loop a fuel 0 lmem =
      some (lmem.filter (fun e => e.start != a) ++
        List.replicate (lmem.countP (fun e => e.start == a)) ⟨0, 0⟩) := by
    intro ha fuel hf
    have := lmem_free_loop_spec a ha fuel 0 lmem hlen (by omega)
      (by rw [List.drop_zero]; omega)
    rw [this]
    simp
  have hlen2 : (lmem.filter (fun e : LMEMBLOCK => e.start != a) ++
      List.replicate (lmem.countP (fun e : LMEMBLOCK => e.start == a))
        (⟨0, 0⟩ : LMEMBLOCK)).length = LMEM_MAX_BLOCK := by
    rw [List.length_append, List.length_replicate, lmem_length_filter_add_countP, hlen]
  refine ⟨?_, ?_, ?_⟩
  · by_cases ha : a = 0
    · refine ⟨lmem, ?_, hlen, fun h => absurd ha h⟩
      unfold lmem_free
      rw [if_neg (by simpa using ha)]
    · refine ⟨lmem.filter (fun e => e.start != a) ++
        List.replicate (lmem.countP (fun e => e.start == a)) ⟨0, 0⟩, ?_, hlen2,
        fun _ i hi => ?_⟩
      · unfold lmem_free
        rw [if_pos ha]
        exact hloop ha _ (Nat.le_refl _)
      · unfold lget
        rw [List.getD_eq_getElem _ _ (by rw [hlen2]; exact hi)]
        have hmem := List.getElem_mem (l := lmem.filter (fun e => e.start != a) ++
          List.replicate (lmem.countP (fun e => e.start == a)) ⟨0, 0⟩)
          (by rw [hlen2]; exact hi : i < _)
        rcases List.mem_append.mp hmem with h | h
        · have := (List.mem_filter.mp h).2
          simpa using this
        · rw [(List.mem_replicate.mp h).2]
          exact fun h0 => ha h0.symm
  · intro ha fuel hf
    rw [hloop ha fuel hf]
    unfold lmem_free
    rw [if_pos ha, hloop ha _ (Nat.le_refl _)]
  · intro ha t i fuel htl hi hm
    refine ⟨?_, lmem_free_step_count t a i ha htl hi hm⟩
    simp only [lmem_free_loop, lmem_free_step]
    rw [if_pos hi, if_pos hm]

set_option maxRecDepth 100000 in
/-- C23, on the reachable table `{0x10000,16}`, `{0x10010,0xFFFFFFF0}`, `{0x10000,16}`,
two descriptors of which share the start 0x10000, with that address. -/
theorem lmem_free_terminates_witness :
    lmem_wrap_state.length = LMEM_MAX_BLOCK ∧
    ((∃ t, lmem_free lmem_wrap_state 0x10000 = some t ∧ t.length = LMEM_MAX_BLOCK ∧
      (0x10000 ≠ 0 → ∀ i, i < LMEM_MAX_BLOCK → (lget t i).start ≠ 0x10000)) ∧
    (0x10000 ≠ 0 → ∀ fuel, 2 * LMEM_MAX_BLOCK ≤ fuel →
      lmem_free_loop 0x10000 fuel 0 lmem_wrap_state = lmem_free lmem_wrap_state 0x10000) ∧
    (0x10000 ≠ 0 → ∀ (t : List LMEMBLOCK) (i fuel : Nat), t.length = LMEM_MAX_BLOCK →
      i < LMEM_MAX_BLOCK → (lget t i).start = 0x10000 →
      lmem_free_loop 0x10000 (fuel + 1) i t =
        lmem_free_loop 0x10000 fuel i (lmem_free_step t i) ∧
      (lmem_free_step t i).countP (fun e => e.start == 0x10000) + 1 =
        t.countP (fun e => e.start == 0x10000))) :=
  ⟨by decide, lmem_free_terminates lmem_wrap_state 0x10000 (by decide)⟩

/-! ## Lemmas on a full table whose last descriptor has size 0 -/

theorem length_lmem_gap_fill (k : Nat) (hk : k ≤ 61) :
    (lmem_gap_fill k).length = LMEM_MAX_BLOCK := by
  have hN : LMEM_MAX_BLOCK = 64 := rfl
  simp [lmem_gap_fill]
  omega

theorem lget_lmem_gap_fill (k i : Nat) :
    lget (lmem_gap_fill k) i =
      if i = 0 then ⟨0x10000, 16⟩
      else if i ≤ k then ⟨0x10010 + 2 * (i - 1), 2⟩
      else if i = k + 1 then ⟨0x11010, 16⟩
      else if i = k + 2 then ⟨0x11020, 0⟩ else ⟨0, 0⟩ := by
  unfold lget lmem_gap_fill
  cases i with
  | zero => simp
  | succ n =>
    rw [List.getD_cons_succ, if_neg (by omega), List.getD_eq_getElem?_getD]
    by_cases h : n < k
    · rw [if_pos (by omega), List.getElem?_append_left (by simp; omega)]
      simp [List.getElem?_map, List.getElem?_range h]
    · rw [if_neg (by omega), List.getElem?_append_right (by simp; omega)]
      have hl : (List.map (fun j => (⟨0x10010 + 2 * j, 2⟩ : LMEMBLOCK)) (List.range k)).length
          = k := by simp
      rw [hl]
      obtain ⟨m, rfl⟩ : ∃ m, n = k + m := ⟨n - k, by omega⟩
      have e : k + m - k = m := by omega
      rw [e]
      cases m with
      | zero => simp
      | succ m =>
        cases m with
        | zero => simp
        | succ m =>
          rw [if_neg (by omega), if_neg (by omega)]
          simp only [List.getElem?_cons_succ, List.getElem?_replicate]
          split <;> rfl

/-- In `lmem_gap_fill k` the entries `0 .. k` are live and entry `i ≤ k` ends at
`0x10010 + 2 i`. -/
theorem lmem_gap_fill_end (k i : Nat) (hi : i ≤ k) :
    (lget (lmem_gap_fill k) i).start ≠ 0 ∧
    (lget (lmem_gap_fill k) i).start + (lget (lmem_gap_fill k) i).size = 0x10010 + 2 * i := by
  rw [lget_lmem_gap_fill]
  by_cases h0 : i = 0
  · subst h0
    rw [if_pos rfl]
    exact ⟨by decide, by decide⟩
  · rw [if_neg h0, if_pos hi]
    simp only
    omega

/-- On `lmem_gap_fill k` the search loop for 2 bytes walks over the entries
`0 .. k` and stops in the gap after entry `k`. -/
theorem lmem_alloc_loop_gap (k : Nat) (hk : k ≤ 61) (d : Nat) :
    ∀ (i st : Nat), i + d = k →
      lmem_alloc_loop (lmem_gap_fill k) 2 (LMEM_MAX_BLOCK - i) i st =
        (k + 1, 0x10010 + 2 * k) := by
  have hN : LMEM_MAX_BLOCK = 64 := rfl
  have hU : U32 = 4294967296 := rfl
  induction d with
  | zero =>
    intro i st hi
    have hik : i = k := by omega
    subst hik
    have hfuel : LMEM_MAX_BLOCK - i = (LMEM_MAX_BLOCK - i - 1) + 1 := by omega
    obtain ⟨hlive, hend⟩ := lmem_gap_fill_end i i (Nat.le_refl _)
    have e2 : lget (lmem_gap_fill i) (i + 1) = ⟨0x11010, 16⟩ := by
      rw [lget_lmem_gap_fill, if_neg (by omega), if_neg (by omega), if_pos rfl]
    rw [hfuel, lmem_alloc_loop_found _ _ _ _ _ hlive (by omega)
      (by rw [e2, hend, hU]; right; simp only; omega), hend, hU]
    congr 1
    omega
  | succ d ih =>
    intro i st hi
    have hfuel : LMEM_MAX_BLOCK - i = (LMEM_MAX_BLOCK - (i + 1)) + 1 := by omega
    obtain ⟨hlive, hend⟩ := lmem_gap_fill_end k i (by omega)
    have e2 : lget (lmem_gap_fill k) (i + 1) = ⟨0x10010 + 2 * i, 2⟩ := by
      rw [lget_lmem_gap_fill, if_neg (by omega), if_pos (by omega)]
      congr 2
    rw [hfuel, lmem_alloc_loop_next _ _ _ _ _ hlive (by omega)
      (by rw [e2, hend, hU]; simp only; omega)]
    exact ih (i + 1) _ (by omega)

/-- On `lmem_gap_fill k`, `k ≤ 61`, `lmem_alloc(1)` is not refused: it returns the
start `0x10010 + 2 k` of the gap and inserts `{0x10010 + 2 k, 2}` at index `k + 1`,
moving the entries from there on one slot toward the tail. -/
theorem lmem_alloc_gap (k : Nat) (hk : k ≤ 61) :
    (lmem_alloc (lmem_gap_fill k) 1).2 = 0x10010 + 2 * k ∧
    (lmem_alloc (lmem_gap_fill k) 1).1.length = LMEM_MAX_BLOCK ∧
    ∀ j, j < LMEM_MAX_BLOCK → lget (lmem_alloc (lmem_gap_fill k) 1).1 j =
      if j < k + 1 then lget (lmem_gap_fill k) j
      else if j = k + 1 then ⟨0x10010 + 2 * k, 2⟩ else lget (lmem_gap_fill k) (j - 1) := by
  have hN : LMEM_MAX_BLOCK = 64 := rfl
  have hloop := lmem_alloc_loop_gap k hk k 0 0 (by omega)
  have hadj : lmem_adjust 1 = 2 := by decide
  have e63 : (lget (lmem_gap_fill k) (LMEM_MAX_BLOCK - 1)).size = 0 := by
    rw [lget_lmem_gap_fill, if_neg (by omega), if_neg (by omega), if_neg (by omega)]
    split <;> rfl
  have hcond : ¬ (1 = 0 ∨ (lget (lmem_gap_fill k) (LMEM_MAX_BLOCK - 1)).size ≠ 0) := by
    rw [e63]
    simp
  have heq : lmem_alloc (lmem_gap_fill k) 1 =
      ((memcpy ⟨0, 0⟩ (lmem_gap_fill k) (k + 1 + 1) (k + 1) (LMEM_MAX_BLOCK - (k + 1) - 1)).1.set
        (k + 1) ⟨0x10010 + 2 * k, 2⟩, 0x10010 + 2 * k) := by
    unfold lmem_alloc
    rw [if_neg hcond]
    simp only [hadj]
    rw [Nat.sub_zero] at hloop
    rw [hloop]
    simp only
    rw [if_pos (by omega)]
  rw [heq]
  refine ⟨rfl, ?_, fun j hj => ?_⟩
  · simp only
    rw [List.length_set, length_memcpy, length_lmem_gap_fill k hk]
  · exact lget_lmem_insert (lmem_gap_fill k) (k + 1) _ (length_lmem_gap_fill k hk) (by omega) j hj

/-- For `k ≤ 60`, `lmem_alloc(1)` turns `lmem_gap_fill k` into `lmem_gap_fill (k + 1)`. -/
theorem lmem_alloc_gap_next (k : Nat) (hk : k ≤ 60) :
    (lmem_alloc (lmem_gap_fill k) 1).1 = lmem_gap_fill (k + 1) := by
  have hN : LMEM_MAX_BLOCK = 64 := rfl
  obtain ⟨_, hlen, hget⟩ := lmem_alloc_gap k (by omega)
  apply list_ext_getD ⟨0, 0⟩
  · rw [hlen, length_lmem_gap_fill (k + 1) (by omega)]
  · intro j hj
    rw [hlen] at hj
    have h1 := hget j hj
    have h2 := lget_lmem_gap_fill (k + 1) j
    have h3 := lget_lmem_gap_fill k j
    have h4 := lget_lmem_gap_fill k (j - 1)
    unfold lget at h1 h2 h3 h4
    rw [h1, h2, h3, h4]
    split_ifs <;> first
      | rfl
      | omega
      | (simp only [LMEMBLOCK.mk.injEq, and_true]; omega)

set_option maxRecDepth 100000 in
/-- After `lmem_alloc(16)`, `lmem_alloc(4096)`, `lmem_alloc(16)`,
`lmem_alloc(0xFFFFFFF8)` and `lmem_free(0x10010)` the table is `lmem_gap_fill 0`:
`{0x10000,16}`, `{0x11010,16}` and the zero-size descriptor `{0x11020,0}`. -/
theorem lmem_gap_fill_zero_free :
    lmem_free lmem_zero_size_state 0x10010 = some (lmem_gap_fill 0) := by
  decide

theorem lmem_gap_fill_reachable (k : Nat) (hk : k ≤ 61) : LmemReachable (lmem_gap_fill k) := by
  induction k with
  | zero =>
    have hz : LmemReachable lmem_zero_size_state :=
      LmemReachable.alloc _ 0xFFFFFFF8 (by decide)
        (LmemReachable.alloc _ 16 (by decide)
          (LmemReachable.alloc _ 4096 (by decide)
            (LmemReachable.alloc _ 16 (by decide) LmemReachable.init)))
    exact LmemReachable.free _ _ 0x10010 (by decide) hz lmem_gap_fill_zero_free
  | succ k ih =>
    rw [← lmem_alloc_gap_next k (by omega)]
    exact LmemReachable.alloc _ 1 (by decide) (ih (by omega))

/-! ## Theorem on region allocate at full occupancy -/

/-- C13: the table reached by `lmem_alloc(16)`, `lmem_alloc(4096)`, `lmem_alloc(16)`,
`lmem_alloc(0xFFFFFFF8)`, `lmem_free(0x10010)` and 61 calls `lmem_alloc(1)` is full:
all 64 slots are live and the last slot holds `{0x11020, 0}`. The next
`lmem_alloc(1)` is not refused: it returns 65674, and the table it leaves has
`{0x11010, 16}` in the last slot and the descriptor `{0x11020, 0}` nowhere. -/
theorem lmem_alloc_full_not_refused :
    LmemReachable (lmem_gap_fill 61) ∧
    (∀ i, i < LMEM_MAX_BLOCK → (lget (lmem_gap_fill 61) i).start ≠ 0) ∧
    lget (lmem_gap_fill 61) (LMEM_MAX_BLOCK - 1) = ⟨0x11020, 0⟩ ∧
    (lmem_alloc (lmem_gap_fill 61) 1).2 = 65674 ∧
    lget (lmem_alloc (lmem_gap_fill 61) 1).1 (LMEM_MAX_BLOCK - 1) = ⟨0x11010, 16⟩ ∧
    (∀ i, i < LMEM_MAX_BLOCK → lget (lmem_alloc (lmem_gap_fill 61) 1).1 i ≠ ⟨0x11020, 0⟩) ∧
    (lmem_alloc (lmem_gap_fill 61) 1).1 ≠ lmem_gap_fill 61 := by
  have hN : LMEM_MAX_BLOCK = 64 := rfl
  obtain ⟨hret, _, hget⟩ := lmem_alloc_gap 61 (Nat.le_refl _)
  have h63 : lget (lmem_gap_fill 61) (LMEM_MAX_BLOCK - 1) = ⟨0x11020, 0⟩ := by
    rw [lget_lmem_gap_fill]
    decide
  have hnew63 : lget (lmem_alloc (lmem_gap_fill 61) 1).1 (LMEM_MAX_BLOCK - 1) =
      ⟨0x11010, 16⟩ := by
    rw [hget _ (by omega), lget_lmem_gap_fill]
    decide
  refine ⟨lmem_gap_fill_reachable 61 (Nat.le_refl _), ?_, h63, hret, hnew63, ?_, ?_⟩
  · intro i hi
    rw [lget_lmem_gap_fill]
    split_ifs <;> first
      | omega
      | (simp only; omega)
  · intro i hi
    rw [hget i hi]
    split_ifs with c1 c2
    · rw [lget_lmem_gap_fill]
      split_ifs <;> first
        | omega
        | (simp only [ne_eq, LMEMBLOCK.mk.injEq]; omega)
    · simp only [ne_eq, LMEMBLOCK.mk.injEq]
      omega
    · rw [lget_lmem_gap_fill]
      split_ifs <;> first
        | omega
        | (simp only [ne_eq, LMEMBLOCK.mk.injEq]; omega)
  · intro heq
    rw [heq, h63] at hnew63
    exact absurd hnew63 (by decide)

end NanoS16
